import Mathlib

/-!
Verification development for the gowap fingerprint evaluation engine
(pkg/core/core.go).

Go strings are modelled as lists of characters (abbrev Str).  Go library
functions used by the core (strings.Split, strings.Replace, strconv.Atoi,
strings.ToLower/ToUpper) are given executable Lean models that follow the
documented Go semantics.  The Go regexp package is external to the
repository; compiled regular expressions are modelled as an abstract
record of their two operations used by the core (MatchString and
FindAllStringSubmatch), supplied through a compile parameter.  The one
regular expression whose text is fixed in the core source (validateURL)
is transcribed into an explicit regex AST with a derivative-based
matcher, and the internal ternary-template regex of detectVersion is
modelled by a direct scan whose faithfulness is argued in its comment.
-/

/-- Go strings, modelled as lists of characters. -/
abbrev Str := List Char

/-- Converts a Lean string literal to the Str model. -/
def s2l (s : String) : Str := s.data

/-- Model of Go strings.ToLower (ASCII range, which is all the core compares). -/
def toLowerStr (s : Str) : Str := s.map Char.toLower

/-- Model of Go strings.ToUpper (ASCII range). -/
def toUpperStr (s : Str) : Str := s.map Char.toUpper

/-- Model of Go strings.Split(s, sep) for a one-character separator:
splits on every occurrence of the character. -/
def splitChar (c : Char) : Str → List Str
  | [] => [[]]
  | x :: xs =>
    if x = c then [] :: splitChar c xs
    else
      match splitChar c xs with
      | [] => [[x]]
      | h :: t => (x :: h) :: t

/-- Model of Go strings.Split(s, sep) for a two-character separator
(the core only splits on the literal sequence backslash-semicolon):
splits at each leftmost non-overlapping occurrence of c1 followed by c2. -/
def splitSubstr (c1 c2 : Char) : Str → List Str
  | [] => [[]]
  | [x] => [[x]]
  | x :: y :: rest =>
    if x = c1 ∧ y = c2 then [] :: splitSubstr c1 c2 rest
    else
      match splitSubstr c1 c2 (y :: rest) with
      | [] => [[x]]
      | h :: t => (x :: h) :: t

/-- Whether the two-character sequence c1 c2 occurs in s. -/
def hasSub2 (c1 c2 : Char) : Str → Bool
  | [] => false
  | [_] => false
  | x :: y :: rest => (decide (x = c1) && decide (y = c2)) || hasSub2 c1 c2 (y :: rest)

/-- One step bound for replaceAllF: fuel-indexed model of Go
strings.Replace(s, old, new, -1): replaces each leftmost non-overlapping
occurrence of old by new.  Fuel at least s.length is always sufficient
because every step consumes at least one character of s. -/
def replaceAllF (old new : Str) : Nat → Str → Str
  | 0, s => s
  | _ + 1, [] => []
  | fuel + 1, x :: xs =>
    if old ≠ [] ∧ old <+: (x :: xs) then
      new ++ replaceAllF old new fuel ((x :: xs).drop old.length)
    else
      x :: replaceAllF old new fuel xs

/-- Model of Go strings.Replace(s, old, new, -1) (for the nonempty old
strings the core uses). -/
def replaceAll (old new s : Str) : Str := replaceAllF old new s.length s

/-- Digit-string value, none when s is empty or holds a non-digit. -/
def natVal : Str → Option Nat
  | [] => none
  | [c] => if c.isDigit then some (c.toNat - '0'.toNat) else none
  | c :: rest =>
    if c.isDigit then
      match natVal rest with
      | some n => some ((c.toNat - '0'.toNat) * 10 ^ rest.length + n)
      | none => none
    else none

/-- Model of Go strconv.Atoi reported as (value, error): optional sign
followed by one or more ASCII digits; none models a non-nil error (the
model ignores 64-bit overflow, which no catalog confidence reaches). -/
def goAtoiOpt : Str → Option Int
  | [] => none
  | '+' :: rest => (natVal rest).map (fun n => (n : Int))
  | '-' :: rest => (natVal rest).map (fun n => -(n : Int))
  | s => (natVal s).map (fun n => (n : Int))

/-- The integer the core actually stores from strconv.Atoi when the error
is discarded: the parsed value, or Go's zero value 0 on error. -/
def goAtoi (s : Str) : Int := (goAtoiOpt s).getD 0

/-!  ## Go dynamic values and the pattern compiler (parsePatterns)  -/

/-- Model of a Go interface{} value produced by JSON unmarshalling, as the
core's pattern fields (url/html/scripts/headers/cookies/meta/dns/js,
implies, excludes) hold them.  null models a nil interface. -/
inductive GoVal where
  | str (s : Str)
  | num (n : Int)
  | bool (b : Bool)
  | list (xs : List GoVal)
  | map (kvs : List (Str × GoVal))
  | null
deriving Repr

instance : Inhabited GoVal := ⟨GoVal.null⟩

/-- True exactly for GoVal.str. -/
def GoVal.isStr : GoVal → Bool
  | .str _ => true
  | _ => false

/-- True exactly for GoVal.null (the Go nil test on an interface field). -/
def GoVal.isNull : GoVal → Bool
  | .null => true
  | _ => false

/-- Model of a compiled Go regexp, recording the two operations the core
calls on it.  findAll models FindAllStringSubmatch(v, -1) with the empty
list standing for Go's nil result (no match). -/
structure RegexM where
  matchString : Str → Bool
  findAll : Str → List (List Str)

/-- Model of regexp.Compile: none models a compilation error. -/
abbrev Compile := Str → Option RegexM

/-- A compile model in which every source compiles and matches everything;
used to instantiate theorems whose content does not depend on the
regex engine. -/
def trivialCompile : Compile := fun _ => some ⟨fun _ => true, fun v => [[v]]⟩

/-- Compiled pattern record (core.go type pattern). -/
structure Pattern where
  str : Str
  regex : Option RegexM
  version : Str
  confidence : Int

/-- Go type assertion v.(string) as the core uses it inside pattern
lists: a non-string element panics (modelled as Except.error). -/
def asStr : GoVal → Except Unit Str
  | .str s => .ok s
  | _ => .error ()

/-- Sequential v.(string) over a pattern list; panics at the first
non-string element. -/
def strList : List GoVal → Except Unit (List Str)
  | [] => .ok []
  | .str s :: rest => (strList rest).map (fun l => s :: l)
  | _ :: _ => .error ()

/-- parsed[k] = append(parsed[k], vs...) on an association list. -/
def appendAt : List (Str × List Str) → Str → List Str → List (Str × List Str)
  | [], k, vs => [(k, vs)]
  | e :: rest, k, vs =>
    if e.1 = k then (e.1, e.2 ++ vs) :: rest
    else e :: appendAt rest k vs

/-- The map[string]interface{} arm of parsePatterns: string values are
kept, lists of values go through v1.(string) (panicking on a non-string
element), any other value type is logged and ignored. -/
def parsedOfMap : List (Str × GoVal) → List (Str × List Str) → Except Unit (List (Str × List Str))
  | [], acc => .ok acc
  | (k, .str s) :: rest, acc => parsedOfMap rest (appendAt acc k [s])
  | (k, .list xs) :: rest, acc =>
    match strList xs with
    | .error e => .error e
    | .ok ss => parsedOfMap rest (appendAt acc k ss)
  | (_, _) :: rest, acc => parsedOfMap rest acc

/-- First phase of parsePatterns: normalizes the dynamic pattern source
into sub-key → list of pattern strings; flat forms use the sub-key
"main".  A list containing a non-string element panics (unchecked type
assertion in the source); any other unexpected shape is logged and
ignored. -/
def parsedOf : GoVal → Except Unit (List (Str × List Str))
  | .str s => .ok [(s2l "main", [s])]
  | .map kvs => parsedOfMap kvs []
  | .list xs =>
    match strList xs with
    | .error e => .error e
    | .ok ss => .ok [(s2l "main", ss)]
  | _ => .ok []

/-- The body → regex source transformation of parsePatterns: replace
literal backslash-slash by slash, literal double backslash by single
backslash, then slash by backslash-slash, and prepend the
case-insensitive flag. -/
def compileSrc (item : Str) : Str :=
  let first := replaceAll (s2l "\\/") (s2l "/") item
  let second := replaceAll (s2l "\\\\") (s2l "\\") first
  s2l "(?i)" ++ replaceAll (s2l "/") (s2l "\\/") second

/-- The per-field loop of parsePatterns over the backslash-semicolon
separated fields, carrying the field index: empty fields are skipped;
field 0 is the body (sets str, and regex when compilation succeeds);
later fields are name:value pairs split on every colon, with only
version and confidence recognized, confidence through strconv.Atoi with
the error discarded. -/
def parseFields (c : Compile) : Nat → List Str → Pattern → Pattern
  | _, [], pat => pat
  | i, item :: rest, pat =>
    if item = [] then parseFields c (i + 1) rest pat
    else if i = 0 then
      parseFields c (i + 1) rest { pat with str := item, regex := c (compileSrc item) }
    else
      match splitChar ':' item with
      | a0 :: a1 :: _ =>
        if a0 = s2l "version" then parseFields c (i + 1) rest { pat with version := a1 }
        else if a0 = s2l "confidence" then
          parseFields c (i + 1) rest { pat with confidence := goAtoi a1 }
        else parseFields c (i + 1) rest pat
      | _ => parseFields c (i + 1) rest pat

/-- Compiles one pattern string (default confidence 100). -/
def parseOnePattern (c : Compile) (s : Str) : Pattern :=
  parseFields c 0 (splitSubstr '\\' ';' s) { str := [], regex := none, version := [], confidence := 100 }

/-- Model of core.go parsePatterns: normalize the dynamic source, then
compile every pattern string, keyed by sub-key.  Except.error models the
panic of the unchecked type assertions. -/
def parsePatterns (c : Compile) (v : GoVal) : Except Unit (List (Str × List Pattern)) :=
  match parsedOf v with
  | .error e => .error e
  | .ok parsed => .ok (parsed.map (fun kv => (kv.1, kv.2.map (parseOnePattern c))))

example : (parseOnePattern trivialCompile (s2l "abc\\;version:\\1\\;confidence:50")).confidence = 50 := by decide
example : (parseOnePattern trivialCompile (s2l "abc\\;version:\\1\\;confidence:50")).version = s2l "\\1" := by decide
example : (parseOnePattern trivialCompile (s2l "abc\\;version:\\1\\;confidence:50")).str = s2l "abc" := by decide
example : (parseOnePattern trivialCompile (s2l "abc\\;confidence:xyz")).confidence = 0 := by decide
example : (parseOnePattern trivialCompile (s2l "")).str = [] := by decide
example : (parseOnePattern trivialCompile (s2l "")).regex.isNone = true := by decide

/-!  ## Technology records, the detection set and addApp  -/

/-- Model of core.go type application, keeping only the fields the engine
reads.  Dynamic pattern fields hold a GoVal; GoVal.null models the nil
interface of a field absent from the catalog JSON.  dom is typed in the
source as map[string]map[string]interface{}. -/
structure App where
  name : Str
  categories : List Str
  url : Str
  cookies : GoVal
  dom : List (Str × List (Str × GoVal))
  js : GoVal
  headers : GoVal
  html : GoVal
  excludes : GoVal
  implies : GoVal
  meta : GoVal
  scripts : GoVal
  dns : GoVal

/-- Model of core.go type resultApp (one detection-set entry). -/
structure ResultApp where
  name : Str
  version : Str
  categories : List Str
  confidence : Int
  excludes : GoVal
  implies : GoVal

/-- The detection set (Go map[string]*resultApp) as an association list;
Go map iteration order is arbitrary, and none of the proved properties
depends on the order of this list. -/
abbrev DM := List (Str × ResultApp)

/-- Map lookup on the detection set. -/
def lookupD : DM → Str → Option ResultApp
  | [], _ => none
  | e :: rest, n => if e.1 = n then some e.2 else lookupD rest n

/-- Map deletion on the detection set (Go delete(m, n)). -/
def eraseD : DM → Str → DM
  | [], _ => []
  | e :: rest, n => if e.1 = n then eraseD rest n else e :: eraseD rest n

/-- The in-place update arm of addApp: overwrite an empty stored version,
raise the confidence when the new one is strictly higher. -/
def mergeApp (r : ResultApp) (v : Str) (c : Int) : ResultApp :=
  { r with
    version := if r.version = [] then v else r.version,
    confidence := if c > r.confidence then c else r.confidence }

/-- Applies mergeApp at the entry named n. -/
def updateD : DM → Str → Str → Int → DM
  | [], _, _, _ => []
  | e :: rest, n, v, c =>
    if e.1 = n then (e.1, mergeApp e.2 v c) :: rest
    else e :: updateD rest n v c

/-- Model of core.go addApp: insert a fresh entry (with the technology's
categories and pending implies/excludes) when the name is absent,
otherwise merge version and confidence into the existing entry. -/
def addApp (app : App) (d : DM) (version : Str) (confidence : Int) : DM :=
  match lookupD d app.name with
  | none => d ++ [(app.name, ⟨app.name, version, app.categories, confidence, app.excludes, app.implies⟩)]
  | some _ => updateD d app.name version confidence

/-!  ## Version resolution (detectVersion)

The source builds, for each submatch index i, the regular expression
backslash backslash i backslash question ([^:]+):(.*)$ and runs
FindAllString(version, -1) on the version template.  Because the
expression is anchored at the end of the text by $ and its tail (.*)
consumes the rest of the template, a match always extends to the end of
the template, so FindAllString returns at most one (non-overlapping)
match: the whole suffix starting at the leftmost position where the
literal tag backslash-i-question is followed by at least one non-colon
character and then a colon.  ternaryScan reproduces exactly that. -/

/-- The literal tag backslash i question for submatch group i. -/
def ternaryTag (i : Nat) : Str := '\\' :: (toString i).data ++ ['?']

/-- Whether the regex of ternaryScan matches at the head of s: the tag,
then at least one non-colon character, then a colon (then anything up to
the end of the template). -/
def ternaryHere (i : Nat) (s : Str) : Bool :=
  (ternaryTag i).isPrefixOf s &&
    (let r := s.drop (ternaryTag i).length
     !(r.head? = some ':' : Bool) && !(r = [] : Bool) && r.contains ':')

/-- Leftmost suffix of s at which the ternary regex for group i matches;
the regex consumes to the end of the template, so the match text is that
whole suffix. -/
def ternaryFind (i : Nat) : Str → Option Str
  | [] => none
  | x :: xs => if ternaryHere i (x :: xs) then some (x :: xs) else ternaryFind i xs

/-- Model of FindAllString of the ternary regex over the template:
at most one match (see the section comment). -/
def ternaryScan (i : Nat) (s : Str) : List Str :=
  match ternaryFind i s with
  | none => []
  | some m => [m]

/-- The per-group body of the detectVersion loop: attempt the ternary
replacement (only when FindAllString produced exactly three matches,
which the anchored regex never does), then substitute every literal
backslash-i with the group text. -/
def applyGroup (i : Nat) (grp : Str) (version : Str) : Str :=
  let tern := ternaryScan i version
  let version :=
    if tern.length = 3 then replaceAll (tern.headD []) (tern.tail.headD []) version
    else version
  replaceAll ('\\' :: (toString i).data) grp version

/-- The group indices of one match slice paired with the group texts
(Go: for i, match := range slice). -/
def applySlice (slice : List Str) (version : Str) : Str :=
  (List.range slice.length).zip slice |>.foldl (fun v im => applyGroup im.1 im.2 v) version

/-- Model of core.go detectVersion: nil regex yields the empty version;
otherwise run FindAllStringSubmatch, thread the template through every
group of every match slice, and return the final template (the versions
set the source builds afterwards holds at most this one string, and the
lexicographic maximum over it is itself). -/
def detectVersion (pattrn : Pattern) (value : Str) : Str :=
  match pattrn.regex with
  | none => []
  | some r =>
    match r.findAll value with
    | [] => []
    | slices => slices.foldl (fun v slice => applySlice slice v) pattrn.version

/-!  ## Matchers  -/

/-- pattrn.regex != nil && pattrn.regex.MatchString(v). -/
def matchesRegex (p : Pattern) (v : Str) : Bool :=
  match p.regex with
  | some r => r.matchString v
  | none => false

/-- Model of core.go analyzeURL: flat patterns from the url field, a hit
requires a non-nil regex that matches the page URL. -/
def analyzeURL (c : Compile) (app : App) (url : Str) (d : DM) : Except Unit DM :=
  match parsePatterns c (GoVal.str app.url) with
  | .error e => .error e
  | .ok pats =>
    .ok (pats.foldl (fun d kv =>
      kv.2.foldl (fun d p =>
        if matchesRegex p url then addApp app d (detectVersion p url) p.confidence else d) d) d)

/-- Model of core.go analyzeScripts: per script source, a hit requires a
non-nil regex that matches. -/
def analyzeScripts (c : Compile) (app : App) (scripts : List Str) (d : DM) : Except Unit DM :=
  match parsePatterns c app.scripts with
  | .error e => .error e
  | .ok pats =>
    .ok (pats.foldl (fun d kv =>
      kv.2.foldl (fun d p =>
        match p.regex with
        | none => d
        | some r =>
          scripts.foldl (fun d script =>
            if r.matchString script then addApp app d (detectVersion p script) p.confidence else d) d) d) d)

/-- Model of core.go analyzeHTML: a hit requires a non-nil regex that
matches the serialized page HTML. -/
def analyzeHTML (c : Compile) (app : App) (html : Str) (d : DM) : Except Unit DM :=
  match parsePatterns c app.html with
  | .error e => .error e
  | .ok pats =>
    .ok (pats.foldl (fun d kv =>
      kv.2.foldl (fun d p =>
        if matchesRegex p html then addApp app d (detectVersion p html) p.confidence else d) d) d)

/-- Association-list lookup used for evidence maps. -/
def lookupAssocL {β : Type} : List (Str × β) → Str → Option β
  | [], _ => none
  | e :: rest, n => if e.1 = n then some e.2 else lookupAssocL rest n

/-- Model of core.go analyzeHeaders: sub-keys are lower-cased header
names; under a present header, each value hits when the pattern body is
empty or the regex matches. -/
def analyzeHeaders (c : Compile) (app : App) (headers : List (Str × List Str)) (d : DM) :
    Except Unit DM :=
  match parsePatterns c app.headers with
  | .error e => .error e
  | .ok pats =>
    .ok (pats.foldl (fun d kv =>
      let lname := toLowerStr kv.1
      kv.2.foldl (fun d p =>
        match lookupAssocL headers lname with
        | none => d
        | some values =>
          values.foldl (fun d hv =>
            if p.str = [] ∨ matchesRegex p hv then addApp app d (detectVersion p hv) p.confidence
            else d) d) d) d)

/-- Model of core.go analyzeCookies: one value per lower-cased cookie
name. -/
def analyzeCookies (c : Compile) (app : App) (cookies : List (Str × Str)) (d : DM) :
    Except Unit DM :=
  match parsePatterns c app.cookies with
  | .error e => .error e
  | .ok pats =>
    .ok (pats.foldl (fun d kv =>
      let lname := toLowerStr kv.1
      kv.2.foldl (fun d p =>
        match lookupAssocL cookies lname with
        | none => d
        | some cookie =>
          if p.str = [] ∨ matchesRegex p cookie then
            addApp app d (detectVersion p cookie) p.confidence
          else d) d) d)

/-- Model of core.go analyzeMeta: like headers, lower-cased meta names
with a list of contents. -/
def analyzeMeta (c : Compile) (app : App) (metas : List (Str × List Str)) (d : DM) :
    Except Unit DM :=
  match parsePatterns c app.meta with
  | .error e => .error e
  | .ok pats =>
    .ok (pats.foldl (fun d kv =>
      let lname := toLowerStr kv.1
      kv.2.foldl (fun d p =>
        match lookupAssocL metas lname with
        | none => d
        | some values =>
          values.foldl (fun d mv =>
            if p.str = [] ∨ matchesRegex p mv then addApp app d (detectVersion p mv) p.confidence
            else d) d) d) d)

/-- Model of core.go analyseDNS: like headers with upper-cased record
types. -/
def analyseDNS (c : Compile) (app : App) (dns : List (Str × List Str)) (d : DM) :
    Except Unit DM :=
  match parsePatterns c app.dns with
  | .error e => .error e
  | .ok pats =>
    .ok (pats.foldl (fun d kv =>
      let uname := toUpperStr kv.1
      kv.2.foldl (fun d p =>
        match lookupAssocL dns uname with
        | none => d
        | some values =>
          values.foldl (fun d dv =>
            if p.str = [] ∨ matchesRegex p dv then addApp app d (detectVersion p dv) p.confidence
            else d) d) d) d)

/-- Model of core.go analyseJS.  evalJS models scraper.EvalJS: the outer
none is a non-nil error, the inner none a nil value pointer; hits
require an error-free non-nil evaluation. -/
def analyseJS (c : Compile) (app : App) (evalJS : Str → Option (Option Str)) (d : DM) :
    Except Unit DM :=
  match parsePatterns c app.js with
  | .error e => .error e
  | .ok pats =>
    .ok (pats.foldl (fun d kv =>
      match evalJS kv.1 with
      | some (some value) =>
        kv.2.foldl (fun d p =>
          if p.str = [] ∨ matchesRegex p value then addApp app d (detectVersion p value) p.confidence
          else d) d
      | _ => d) d)

/-- One DOM element as the matcher reads it: its text and its attributes
(goquery Selection.Text and Selection.Attr on the first match). -/
structure DomElem where
  text : Str
  attr : Str → Option Str

/-- Model of core.go analyseDom.  domFind models
doc.Find(selector).First(): none when the selector matches no element
(Each then runs the body zero times).  For domType "text" the value is
the element text; "properties" and "attributes" both read the named
attribute (missing attribute reads as the empty string, Go's zero
value); any other domType leaves the value empty. -/
def analyseDom (c : Compile) (app : App) (domFind : Str → Option DomElem) (d : DM) :
    Except Unit DM :=
  app.dom.foldlM (fun d sel =>
    match domFind sel.1 with
    | none => pure d
    | some el =>
      sel.2.foldlM (fun d typed =>
        match parsePatterns c typed.2 with
        | .error e => .error e
        | .ok pats =>
          pure (pats.foldl (fun d kv =>
            kv.2.foldl (fun d p =>
              let value : Str :=
                if typed.1 = s2l "text" then el.text
                else if typed.1 = s2l "properties" ∨ typed.1 = s2l "attributes" then
                  (el.attr kv.1).getD []
                else []
              if p.str = [] ∨ matchesRegex p value then
                addApp app d (detectVersion p value) p.confidence
              else d) d) d)) d) d

/-!  ## Post-processing: excludes and implies  -/

/-- Model of core.go resolveExcludes: parse the excludes value and delete
every pattern's str from the detection set. -/
def resolveExcludes (c : Compile) (d : DM) (value : GoVal) : Except Unit DM :=
  match parsePatterns c value with
  | .error e => .error e
  | .ok pm => .ok (pm.foldl (fun d kv => kv.2.foldl (fun d p => eraseD d p.str) d) d)

/-- The detection-set entry resolveImplies inserts for pattern p whose
str named the catalog technology app. -/
def impliedApp (app : App) (p : Pattern) : ResultApp :=
  ⟨app.name, p.version, app.categories, p.confidence, app.excludes, app.implies⟩

/-- The flattened iteration order of resolveImplies over the parsed
pattern groups. -/
def flattenPats (pm : List (Str × List Pattern)) : List Pattern :=
  pm.foldr (fun kv acc => kv.2 ++ acc) []

/-- Number of catalog technologies not yet in the detection set: the
depth bound for the implies recursion (it strictly shrinks at every
recursive call because the call follows an insertion of a previously
undetected catalog key). -/
def undetCount (apps : List (Str × App)) (d : DM) : Nat :=
  ((apps.map Prod.fst).filter (fun n => (lookupD d n).isNone)).length

/-- The pattern loop of core.go resolveImplies, with explicit recursion
depth fuel.  Fuel is spent only when recursing into a newly inserted
technology's own implies; .error from fuel 0 marks exhausted depth and
is proved unreachable whenever fuel is at least undetCount (theorem C7).
The Except also carries the parsePatterns panic. -/
def impliesLoop (c : Compile) (apps : List (Str × App)) : Nat → DM → List Pattern → Except Unit DM
  | _, d, [] => .ok d
  | fuel, d, p :: rest =>
    match lookupAssocL apps p.str with
    | none => impliesLoop c apps fuel d rest
    | some app =>
      if (lookupD d p.str).isSome then impliesLoop c apps fuel d rest
      else
        let d' := d ++ [(p.str, impliedApp app p)]
        if app.implies.isNull then impliesLoop c apps fuel d' rest
        else
          match fuel with
          | 0 => .error ()
          | f + 1 =>
            match parsePatterns c app.implies with
            | .error e => .error e
            | .ok pm =>
              match impliesLoop c apps f d' (flattenPats pm) with
              | .error e => .error e
              | .ok d2 => impliesLoop c apps (f + 1) d2 rest
  termination_by fuel _ ps => (fuel, ps.length)

/-- Model of core.go resolveImplies: parse the implies value, then run
the guarded insertion loop over the flattened patterns. -/
def resolveImplies (c : Compile) (apps : List (Str × App)) (fuel : Nat) (d : DM) (value : GoVal) :
    Except Unit DM :=
  match parsePatterns c value with
  | .error e => .error e
  | .ok pm => impliesLoop c apps fuel d (flattenPats pm)

/-!  ## URL validation and the order of operations inside Analyze  -/

/-- Regular-expression ASTs for the one regex whose text is fixed in the
source (validateURL); matching existence is engine-independent, so a
Brzozowski-derivative matcher decides MatchString. -/
inductive RE where
  | fail
  | eps
  | cls (p : Char → Bool)
  | cat (a b : RE)
  | alt (a b : RE)
  | star (a : RE)

/-- Whether the regex accepts the empty string. -/
def RE.nullable : RE → Bool
  | .fail => false
  | .eps => true
  | .cls _ => false
  | .cat a b => a.nullable && b.nullable
  | .alt a b => a.nullable || b.nullable
  | .star _ => true

/-- Brzozowski derivative with respect to one character. -/
def RE.deriv : RE → Char → RE
  | .fail, _ => .fail
  | .eps, _ => .fail
  | .cls p, ch => if p ch then .eps else .fail
  | .cat a b, ch =>
    if a.nullable then .alt (.cat (a.deriv ch) b) (b.deriv ch) else .cat (a.deriv ch) b
  | .alt a b, ch => .alt (a.deriv ch) (b.deriv ch)
  | .star a, ch => .cat (a.deriv ch) (.star a)

/-- Whole-string regex match by iterated derivatives. -/
def reMatch (r : RE) (s : Str) : Bool := (s.foldl RE.deriv r).nullable

/-- Single-character literal. -/
def RE.lit (ch : Char) : RE := .cls (fun c => c = ch)

/-- String literal. -/
def RE.strRE (s : Str) : RE := s.foldr (fun ch r => RE.cat (RE.lit ch) r) RE.eps

/-- Zero-or-one. -/
def RE.opt (r : RE) : RE := .alt r .eps

/-- One-or-more. -/
def RE.plus (r : RE) : RE := .cat r (.star r)

/-- Go regexp \w (ASCII word character). -/
def wordChar (ch : Char) : Bool := ch.isAlphanum || ch = '_'

/-- The class [\w.-] of the host part of the validateURL regex. -/
def hostChar (ch : Char) : Bool := wordChar ch || ch = '.' || ch = '-'

/-- The punctuation accepted by the tail class of the validateURL regex
(the 39 entry is the single-quote character). -/
def pathPunct : Str := s2l "-._~:/?#[]@!$&()*+,;=." ++ [Char.ofNat 39]

/-- The tail class of the validateURL regex. -/
def pathChar (ch : Char) : Bool := wordChar ch || pathPunct.contains ch

/-- Transcription of the regex compiled by core.go validateURL:
caret (?:http(s)?://)? [\w.-]+ (?:\.[\w\.-]+)+ [tail class]+ dollar.
Because the pattern is anchored at both ends, MatchString is the exact
whole-string match decided by reMatch. -/
def urlRE : RE :=
  RE.cat
    (RE.opt (RE.cat (RE.strRE (s2l "http")) (RE.cat (RE.opt (RE.lit 's')) (RE.strRE (s2l "://")))))
    (RE.cat (RE.plus (RE.cls hostChar))
      (RE.cat (RE.plus (RE.cat (RE.lit '.') (RE.plus (RE.cls hostChar))))
        (RE.plus (RE.cls pathChar))))

/-- Model of core.go validateURL (the regex always compiles, so the
function is MatchString of urlRE). -/
def validateURL (url : Str) : Bool := reMatch urlRE url

/-- The externally visible operations of Analyze in their source order,
at phase granularity: the Scrape call (line 171) happens before URL
validation (line 174); on validation failure Analyze returns immediately
after, otherwise the matcher fan-out and post-processing run. -/
inductive AnalyzeEvent where
  | scrapeCall (url : Str)
  | matcherFanOut
  | postProcess
deriving DecidableEq

/-- The operations Analyze performs for a given input URL, in order. -/
def analyzeEvents (url : Str) : List AnalyzeEvent :=
  AnalyzeEvent.scrapeCall url ::
    (if validateURL url then [AnalyzeEvent.matcherFanOut, AnalyzeEvent.postProcess] else [])

/-- The error Analyze returns to the caller, none on the success path. -/
def analyzeError (url : Str) : Option Str :=
  if validateURL url then none else some (s2l "UrlNotValid")

/-!  ## Engine construction (Init)  -/

/-- The configuration fields Init reads. -/
structure ConfigM where
  appsJSONPath : Str
  scraperName : Str
  jsonFlag : Bool

/-- The environment Init runs against: the scraper's Init result, the
filesystem at AppsJSONPath, the embedded asset, and whether a given
catalog document unmarshals (covering the three Unmarshal loops of
lines 124-148, each of whose failures returns that error). -/
structure InitWorld where
  scraperInitErr : Option Str
  statOk : Bool
  userFileContent : Option Str
  embeddedContent : Option Str
  unmarshalOk : Str → Bool

/-- The part of the constructed engine Init determines. -/
structure WappModel where
  scraperName : Str
  jsonFlag : Bool

/-- Model of core.go Init.  Line 98 stores the scraper's Init error in
err, but no later statement tests that value: the error paths below
return errors of their own, every other path overwrites err (lines 116
and 124) and the final statement returns (wapp, nil); the binding is
therefore dead, exactly as in the source. -/
def InitGo (cfg : ConfigM) (w : InitWorld) : Except Str WappModel :=
  if cfg.scraperName ≠ s2l "colly" ∧ cfg.scraperName ≠ s2l "rod" then
    Except.error (s2l "UnknownScraper")
  else
    let _errFromScraperInit := w.scraperInitErr
    let appsFile : Str :=
      if cfg.appsJSONPath ≠ [] ∧ w.statOk then w.userFileContent.getD [] else []
    if cfg.appsJSONPath = [] ∨ appsFile = [] then
      match w.embeddedContent with
      | none => Except.error (s2l "EmbeddedAssetReadError")
      | some content =>
        if w.unmarshalOk content then Except.ok ⟨cfg.scraperName, cfg.jsonFlag⟩
        else Except.error (s2l "UnmarshalError")
    else
      if w.unmarshalOk appsFile then Except.ok ⟨cfg.scraperName, cfg.jsonFlag⟩
      else Except.error (s2l "UnmarshalError")

/-!  ## Lemmas about the Go string splitters  -/

theorem splitChar_not_mem (c : Char) : ∀ (l : Str), c ∉ l → splitChar c l = [l]
  | [], _ => rfl
  | x :: xs, h => by
    simp only [List.mem_cons, not_or] at h
    have hx : ¬x = c := fun he => h.1 he.symm
    simp only [splitChar, if_neg hx, splitChar_not_mem c xs h.2]

theorem splitChar_append (c : Char) : ∀ (a b : Str), c ∉ a →
    splitChar c (a ++ c :: b) = a :: splitChar c b
  | [], b, _ => by simp [splitChar]
  | x :: a', b, h => by
    simp only [List.mem_cons, not_or] at h
    have hx : ¬x = c := fun he => h.1 he.symm
    have ih := splitChar_append c a' b h.2
    show splitChar c (x :: (a' ++ c :: b)) = (x :: a') :: splitChar c b
    simp only [splitChar, if_neg hx, List.append_eq, ih]

theorem splitSubstr_no_occur (c1 c2 : Char) : ∀ (l : Str),
    hasSub2 c1 c2 l = false → splitSubstr c1 c2 l = [l]
  | [], _ => rfl
  | [_], _ => rfl
  | x :: y :: rest, h => by
    simp only [hasSub2, Bool.or_eq_false_iff, Bool.and_eq_false_iff,
      decide_eq_false_iff_not] at h
    have hcond : ¬(x = c1 ∧ y = c2) := fun hc => by
      rcases h.1 with h1 | h2
      · exact h1 hc.1
      · exact h2 hc.2
    simp only [splitSubstr, if_neg hcond, splitSubstr_no_occur c1 c2 (y :: rest) h.2]

theorem splitSubstr_append (c1 c2 : Char) : ∀ (a b : Str), c1 ∉ a →
    splitSubstr c1 c2 (a ++ c1 :: c2 :: b) = a :: splitSubstr c1 c2 b
  | [], b, _ => by simp [splitSubstr]
  | x :: a', b, h => by
    simp only [List.mem_cons, not_or] at h
    have hx : ¬x = c1 := fun he => h.1 he.symm
    cases a' with
    | nil =>
      have hcond : ¬(x = c1 ∧ c1 = c2) := fun hc => hx hc.1
      have h0 : splitSubstr c1 c2 (c1 :: c2 :: b) = [] :: splitSubstr c1 c2 b := by
        simp [splitSubstr]
      show splitSubstr c1 c2 (x :: c1 :: c2 :: b) = [x] :: splitSubstr c1 c2 b
      simp [splitSubstr, if_neg hcond]
    | cons z a'' =>
      have hcond : ¬(x = c1 ∧ z = c2) := fun hc => hx hc.1
      have hrec := splitSubstr_append c1 c2 (z :: a'') b h.2
      show splitSubstr c1 c2 (x :: (z :: a'' ++ c1 :: c2 :: b)) =
        (x :: z :: a'') :: splitSubstr c1 c2 b
      simp only [List.cons_append, List.append_eq] at hrec ⊢
      simp only [splitSubstr, if_neg hcond, hrec]

/-!  ## Pattern-compiler lemmas and claims C6 / C10  -/

theorem parsePatterns_str (c : Compile) (s : Str) :
    parsePatterns c (GoVal.str s) = .ok [(s2l "main", [parseOnePattern c s])] := rfl

/-- parseFields on a two-field slice with nonempty fields: the body sets
str and regex, and the second field is dispatched on its colon split. -/
theorem parseFields_two (c : Compile) (body item : Str) (hbody : ¬body = [])
    (hitem : ¬item = []) (pat : Pattern) :
    parseFields c 0 [body, item] pat =
      (match splitChar ':' item with
       | a0 :: a1 :: _ =>
         if a0 = s2l "version" then
           { pat with str := body, regex := c (compileSrc body), version := a1 }
         else if a0 = s2l "confidence" then
           { pat with str := body, regex := c (compileSrc body), confidence := goAtoi a1 }
         else { pat with str := body, regex := c (compileSrc body) }
       | _ => { pat with str := body, regex := c (compileSrc body) }) := by
  simp only [parseFields, if_neg hbody, if_neg hitem, if_pos rfl,
    if_neg (by decide : ¬(1 : Nat) = 0)]
  cases splitChar ':' item with
  | nil => rfl
  | cons a0 t =>
    cases t with
    | nil => rfl
    | cons a1 t' =>
      by_cases hv : a0 = s2l "version"
      · simp [hv]
      · by_cases hc : a0 = s2l "confidence" <;> simp [hv, hc]

/-- C10: the field parser splits a field on every colon and keeps only
additional[1], so a version template containing a colon is truncated at
its first colon; compiling "abc backslash-semicolon version:backslash-1
question X colon Y" stores version backslash-1 question X, and the
stored template never contains a colon. -/
theorem C10_version_template_truncated (c : Compile) (X Y : Str)
    (hX : ':' ∉ X)
    (hsub : hasSub2 '\\' ';' (s2l "version:\\1?" ++ X ++ ':' :: Y) = false) :
    ∃ p : Pattern,
      parsePatterns c (GoVal.str (s2l "abc\\;version:\\1?" ++ X ++ ':' :: Y)) =
          .ok [(s2l "main", [p])] ∧
        p.str = s2l "abc" ∧ p.version = s2l "\\1?" ++ X ∧ ':' ∉ p.version := by
  have hnm : ':' ∉ s2l "\\1?" ++ X := by
    intro hm
    rcases List.mem_append.mp hm with h | h
    · exact absurd h (by decide)
    · exact hX h
  have e1 : s2l "abc\\;version:\\1?" ++ X ++ ':' :: Y =
      s2l "abc" ++ '\\' :: ';' :: (s2l "version:\\1?" ++ X ++ ':' :: Y) := rfl
  have hsplit1 : splitSubstr '\\' ';' (s2l "abc\\;version:\\1?" ++ X ++ ':' :: Y) =
      [s2l "abc", s2l "version:\\1?" ++ X ++ ':' :: Y] := by
    rw [e1, splitSubstr_append '\\' ';' (s2l "abc") _ (by decide),
      splitSubstr_no_occur '\\' ';' _ hsub]
  have e2 : s2l "version:\\1?" ++ X ++ ':' :: Y =
      s2l "version" ++ ':' :: (s2l "\\1?" ++ X ++ ':' :: Y) := rfl
  have e3 : s2l "\\1?" ++ X ++ ':' :: Y = (s2l "\\1?" ++ X) ++ ':' :: Y := rfl
  have hsplit2 : splitChar ':' (s2l "version:\\1?" ++ X ++ ':' :: Y) =
      s2l "version" :: (s2l "\\1?" ++ X) :: splitChar ':' Y := by
    rw [e2, splitChar_append ':' (s2l "version") _ (by decide), e3,
      splitChar_append ':' (s2l "\\1?" ++ X) Y hnm]
  have hitem : ¬(s2l "version:\\1?" ++ X ++ ':' :: Y) = [] := fun h =>
    List.cons_ne_nil _ _ (show ('v' :: (s2l "ersion:\\1?" ++ X ++ ':' :: Y)) = [] from h)
  refine ⟨{ str := s2l "abc", regex := c (compileSrc (s2l "abc")),
            version := s2l "\\1?" ++ X, confidence := 100 }, ?_, rfl, rfl, hnm⟩
  rw [parsePatterns_str]
  have hone : parseOnePattern c (s2l "abc\\;version:\\1?" ++ X ++ ':' :: Y) =
      { str := s2l "abc", regex := c (compileSrc (s2l "abc")),
        version := s2l "\\1?" ++ X, confidence := 100 } := by
    unfold parseOnePattern
    rw [hsplit1, parseFields_two c _ _ (by decide) hitem, hsplit2]
    simp
  rw [hone]

theorem C10_version_template_truncated_witness :
    ∃ p : Pattern,
      parsePatterns trivialCompile
          (GoVal.str (s2l "abc\\;version:\\1?" ++ s2l "X" ++ ':' :: s2l "Y")) =
          .ok [(s2l "main", [p])] ∧
        p.str = s2l "abc" ∧ p.version = s2l "\\1?" ++ s2l "X" ∧ ':' ∉ p.version :=
  C10_version_template_truncated trivialCompile (s2l "X") (s2l "Y") (by decide) (by decide)

/-- C6 counterexample: on a confidence value that fails integer parsing
the compiled confidence is Go's Atoi zero value 0, not the default 100
the claim states. -/
theorem C6_confidence_parse_failure_counterexample :
    goAtoiOpt (s2l "xyz") = none ∧
      (parseOnePattern trivialCompile (s2l "abc\\;confidence:xyz")).confidence = 0 ∧
      ¬(parseOnePattern trivialCompile (s2l "abc\\;confidence:xyz")).confidence = 100 :=
  ⟨by decide, by decide, by decide⟩

/-- C6 amended: fields split on the literal backslash-semicolon and the
example pattern compiles to str abc, version backslash-1, confidence 50;
but when the confidence value fails integer parsing the stored
confidence is 0 (strconv.Atoi's zero value with the error discarded),
not the default 100. -/
theorem C6_pattern_fields_amended (c : Compile) :
    ((parseOnePattern c (s2l "abc\\;version:\\1\\;confidence:50")).str = s2l "abc" ∧
      (parseOnePattern c (s2l "abc\\;version:\\1\\;confidence:50")).version = s2l "\\1" ∧
      (parseOnePattern c (s2l "abc\\;version:\\1\\;confidence:50")).confidence = 50) ∧
    ∀ v : Str, ':' ∉ v → hasSub2 '\\' ';' (s2l "confidence:" ++ v) = false →
      goAtoiOpt v = none →
      (parseOnePattern c (s2l "abc\\;confidence:" ++ v)).confidence = 0 := by
  constructor
  · have h : parseOnePattern c (s2l "abc\\;version:\\1\\;confidence:50") =
        { str := s2l "abc", regex := c (compileSrc (s2l "abc")), version := s2l "\\1",
          confidence := 50 } := rfl
    rw [h]
    exact ⟨rfl, rfl, rfl⟩
  · intro v hv hsub hAtoi
    have e1 : s2l "abc\\;confidence:" ++ v =
        s2l "abc" ++ '\\' :: ';' :: (s2l "confidence:" ++ v) := rfl
    have hsplit1 : splitSubstr '\\' ';' (s2l "abc\\;confidence:" ++ v) =
        [s2l "abc", s2l "confidence:" ++ v] := by
      rw [e1, splitSubstr_append '\\' ';' (s2l "abc") _ (by decide),
        splitSubstr_no_occur '\\' ';' _ hsub]
    have e2 : s2l "confidence:" ++ v = s2l "confidence" ++ ':' :: v := rfl
    have hsplit2 : splitChar ':' (s2l "confidence:" ++ v) = [s2l "confidence", v] := by
      rw [e2, splitChar_append ':' (s2l "confidence") _ (by decide), splitChar_not_mem ':' v hv]
    have hitem : ¬(s2l "confidence:" ++ v) = [] := fun h =>
      List.cons_ne_nil _ _ (show ('c' :: (s2l "onfidence:" ++ v)) = [] from h)
    unfold parseOnePattern
    rw [hsplit1, parseFields_two c _ _ (by decide) hitem, hsplit2]
    simp [goAtoi, hAtoi, show ¬s2l "confidence" = s2l "version" from by decide]

theorem C6_pattern_fields_amended_witness :
    (parseOnePattern trivialCompile (s2l "abc\\;confidence:xyz")).confidence = 0 :=
  (C6_pattern_fields_amended trivialCompile).2 (s2l "xyz") (by decide) (by decide) (by decide)

/-!  ## Claim C5: where pattern parsing panics  -/

/-- Whether one sub-key entry of a pattern map holds a list containing a
non-string element (the entry on which the unchecked v1.(string)
assertion panics). -/
def mapEntryBad (kv : Str × GoVal) : Bool :=
  match kv.2 with
  | .list xs => xs.any (fun x => !x.isStr)
  | _ => false

/-- The exact shapes on which parsePatterns performs an unchecked string
type assertion that fails: a flat pattern list, or a list under a
sub-key of a pattern map, containing a non-string element. -/
def hasListNonStr : GoVal → Bool
  | .list xs => xs.any (fun x => !x.isStr)
  | .map kvs => kvs.any mapEntryBad
  | _ => false

theorem strList_error_iff : ∀ xs : List GoVal,
    (strList xs = .error ()) ↔ xs.any (fun x => !x.isStr) = true
  | [] => by simp [strList]
  | .str s :: rest => by
    have ih := strList_error_iff rest
    cases h : strList rest with
    | error e =>
      cases e
      simpa [strList, h, Except.map, GoVal.isStr] using ih
    | ok l =>
      simpa [strList, h, Except.map, GoVal.isStr] using ih
  | .num n :: rest => by simp [strList, GoVal.isStr]
  | .bool b :: rest => by simp [strList, GoVal.isStr]
  | .list xs :: rest => by simp [strList, GoVal.isStr]
  | .map kvs :: rest => by simp [strList, GoVal.isStr]
  | .null :: rest => by simp [strList, GoVal.isStr]

theorem parsedOfMap_error_iff : ∀ (kvs : List (Str × GoVal)) (acc : List (Str × List Str)),
    (parsedOfMap kvs acc = .error ()) ↔ kvs.any mapEntryBad = true
  | [], acc => by simp [parsedOfMap]
  | (k, .str s) :: rest, acc => by
    have ih := parsedOfMap_error_iff rest (appendAt acc k [s])
    simpa [parsedOfMap, mapEntryBad] using ih
  | (k, .list xs) :: rest, acc => by
    cases h : strList xs with
    | error e =>
      cases e
      have hbad : xs.any (fun x => !x.isStr) = true := (strList_error_iff xs).mp h
      simp [parsedOfMap, h, mapEntryBad, hbad]
    | ok ss =>
      have hgood : ¬xs.any (fun x => !x.isStr) = true := fun hc => by
        have := (strList_error_iff xs).mpr hc
        rw [h] at this
        exact Except.noConfusion this
      have ih := parsedOfMap_error_iff rest (appendAt acc k ss)
      simp only [parsedOfMap, h]
      simpa [mapEntryBad, hgood] using ih
  | (k, .num n) :: rest, acc => by
    simpa [parsedOfMap, mapEntryBad] using parsedOfMap_error_iff rest acc
  | (k, .bool b) :: rest, acc => by
    simpa [parsedOfMap, mapEntryBad] using parsedOfMap_error_iff rest acc
  | (k, .map kvs2) :: rest, acc => by
    simpa [parsedOfMap, mapEntryBad] using parsedOfMap_error_iff rest acc
  | (k, .null) :: rest, acc => by
    simpa [parsedOfMap, mapEntryBad] using parsedOfMap_error_iff rest acc

theorem parsedOf_error_iff (v : GoVal) : (parsedOf v = .error ()) ↔ hasListNonStr v = true := by
  cases v with
  | str s => simp [parsedOf, hasListNonStr]
  | map kvs => simpa [parsedOf, hasListNonStr] using parsedOfMap_error_iff kvs []
  | list xs =>
    cases h : strList xs with
    | error e =>
      cases e
      have hbad := (strList_error_iff xs).mp h
      simp [parsedOf, h, hasListNonStr, hbad]
    | ok ss =>
      have hgood : ¬xs.any (fun x => !x.isStr) = true := fun hc => by
        have := (strList_error_iff xs).mpr hc
        rw [h] at this
        exact Except.noConfusion this
      simp [parsedOf, h, hasListNonStr, hgood]
  | num n => simp [parsedOf, hasListNonStr]
  | bool b => simp [parsedOf, hasListNonStr]
  | null => simp [parsedOf, hasListNonStr]

/-- C5 amended: pattern parsing panics exactly on a pattern list (flat
or under a sub-key) containing a non-string element, where the source
performs an unchecked string type assertion; every other input shape is
parsed or silently ignored without panicking. -/
theorem C5_parse_panics_iff (c : Compile) (v : GoVal) :
    (parsePatterns c v = .error ()) ↔ hasListNonStr v = true := by
  rw [← parsedOf_error_iff v]
  unfold parsePatterns
  cases h : parsedOf v with
  | error e => cases e; simp [h]
  | ok parsed => simp [h]

/-- C5 counterexample: a pattern list holding the number 3 makes
parsePatterns panic (the unchecked v.(string) assertion), so the claim
that pattern parsing never panics on a list with a non-string element is
false. -/
theorem C5_parse_panics_counterexample :
    parsePatterns trivialCompile (GoVal.list [GoVal.num 3]) = .error () := rfl

/-!  ## Claim C1: addApp merge semantics  -/

/-- The first non-empty string of a list (empty when there is none). -/
def firstNonEmptyVersion (l : List Str) : Str := (l.filter (fun v => !v.isEmpty)).headD []

theorem firstNonEmptyVersion_nil_cons (l : List Str) :
    firstNonEmptyVersion ([] :: l) = firstNonEmptyVersion l := by
  simp [firstNonEmptyVersion]

theorem firstNonEmptyVersion_cons_ne (v : Str) (l : List Str) (hv : ¬v = []) :
    firstNonEmptyVersion (v :: l) = v := by
  have h : v.isEmpty = false := by simpa [List.isEmpty_iff] using hv
  simp [firstNonEmptyVersion, List.filter_cons, h]

/-- Folding addApp calls that all carry the name nm over a singleton
detection set keeps a singleton and merges fields as addApp does. -/
theorem addApp_fold_single (nm : Str) :
    ∀ (calls : List (App × Str × Int)) (r : ResultApp),
      (∀ x ∈ calls, x.1.name = nm) →
      ∃ r' : ResultApp,
        calls.foldl (fun d x => addApp x.1 d x.2.1 x.2.2) [(nm, r)] = [(nm, r')] ∧
        r'.name = r.name ∧ r'.categories = r.categories ∧ r'.excludes = r.excludes ∧
        r'.implies = r.implies ∧
        r'.version =
          (if r.version = [] then firstNonEmptyVersion (calls.map (fun x => x.2.1))
           else r.version) ∧
        r.confidence ≤ r'.confidence ∧
        (∀ x ∈ calls, x.2.2 ≤ r'.confidence) ∧
        (r'.confidence = r.confidence ∨ ∃ x ∈ calls, r'.confidence = x.2.2)
  | [], r, _ => by
    refine ⟨r, rfl, rfl, rfl, rfl, rfl, ?_, le_refl _, by simp, Or.inl rfl⟩
    by_cases h : r.version = [] <;> simp [h, firstNonEmptyVersion]
  | x :: rest, r, hnm => by
    have hx : x.1.name = nm := hnm x (List.mem_cons_self x rest)
    have hstep : addApp x.1 [(nm, r)] x.2.1 x.2.2 = [(nm, mergeApp r x.2.1 x.2.2)] := by
      simp [addApp, hx, lookupD, updateD]
    have hrest : ∀ y ∈ rest, y.1.name = nm := fun y hy => hnm y (List.mem_cons_of_mem x hy)
    obtain ⟨r', hfold, hname, hcats, hex, him, hver, hmono, hbound, hattr⟩ :=
      addApp_fold_single nm rest (mergeApp r x.2.1 x.2.2) hrest
    refine ⟨r', ?_, hname, hcats, hex, him, ?_, ?_, ?_, ?_⟩
    · rw [List.foldl_cons, hstep]; exact hfold
    · rw [hver]
      by_cases hrv : r.version = []
      · by_cases hv : x.2.1 = []
        · simp [mergeApp, hrv, hv, firstNonEmptyVersion_nil_cons]
        · simp [mergeApp, hrv, hv, firstNonEmptyVersion_cons_ne _ _ hv]
      · simp [mergeApp, hrv]
    · have h1 : r.confidence ≤ (mergeApp r x.2.1 x.2.2).confidence := by
        simp only [mergeApp]
        split <;> omega
      exact le_trans h1 hmono
    · intro y hy
      rcases List.mem_cons.mp hy with rfl | hy'
      · have h1 : y.2.2 ≤ (mergeApp r y.2.1 y.2.2).confidence := by
          simp only [mergeApp]
          split <;> omega
        exact le_trans h1 hmono
      · exact hbound y hy'
    · rcases hattr with h | ⟨y, hy, hval⟩
      · simp only [mergeApp] at h
        by_cases hc : x.2.2 > r.confidence
        · right
          exact ⟨x, List.mem_cons_self x rest, by rw [h, if_pos hc]⟩
        · left
          rw [h, if_neg hc]
      · exact Or.inr ⟨y, List.mem_cons_of_mem x hy, hval⟩

/-- C1: for a sequence of addApp calls under one technology name the
detection set holds exactly one entry for that name; its confidence is
the maximum reported so far, its version the first non-empty version,
and its categories and pending implies/excludes those of the first
inserting call. -/
theorem C1_addApp_detection_merge (nm : Str) (calls : List (App × Str × Int))
    (hnm : ∀ x ∈ calls, x.1.name = nm) (hne : calls ≠ []) :
    ∃ r : ResultApp,
      calls.foldl (fun d x => addApp x.1 d x.2.1 x.2.2) [] = [(nm, r)] ∧
      r.name = nm ∧
      r.version = firstNonEmptyVersion (calls.map (fun x => x.2.1)) ∧
      (∀ x ∈ calls, x.2.2 ≤ r.confidence) ∧
      (∃ x ∈ calls, r.confidence = x.2.2) ∧
      r.categories = (calls.head hne).1.categories ∧
      r.excludes = (calls.head hne).1.excludes ∧
      r.implies = (calls.head hne).1.implies := by
  cases calls with
  | nil => exact absurd rfl hne
  | cons x0 rest =>
    have hx0 : x0.1.name = nm := hnm x0 (List.mem_cons_self x0 rest)
    have hstep : addApp x0.1 [] x0.2.1 x0.2.2 =
        [(nm, ⟨nm, x0.2.1, x0.1.categories, x0.2.2, x0.1.excludes, x0.1.implies⟩)] := by
      simp [addApp, lookupD, hx0]
    have hrest : ∀ y ∈ rest, y.1.name = nm := fun y hy => hnm y (List.mem_cons_of_mem x0 hy)
    obtain ⟨r', hfold, hname, hcats, hex, him, hver, hmono, hbound, hattr⟩ :=
      addApp_fold_single nm rest ⟨nm, x0.2.1, x0.1.categories, x0.2.2, x0.1.excludes, x0.1.implies⟩
        hrest
    refine ⟨r', ?_, hname, ?_, ?_, ?_, hcats, hex, him⟩
    · rw [List.foldl_cons, hstep]; exact hfold
    · rw [hver]
      by_cases hv : x0.2.1 = []
      · simp [hv, firstNonEmptyVersion_nil_cons]
      · simp [hv, firstNonEmptyVersion_cons_ne _ _ hv]
    · intro y hy
      rcases List.mem_cons.mp hy with rfl | hy'
      · exact hmono
      · exact hbound y hy'
    · rcases hattr with h | ⟨y, hy, hval⟩
      · exact ⟨x0, List.mem_cons_self x0 rest, h⟩
      · exact ⟨y, List.mem_cons_of_mem x0 hy, hval⟩

/-- A concrete technology record for witnesses. -/
def appNginx : App :=
  ⟨s2l "nginx", [s2l "Web servers"], [], GoVal.null, [], GoVal.null, GoVal.null, GoVal.null,
    GoVal.null, GoVal.null, GoVal.null, GoVal.null, GoVal.null⟩

/-- A concrete addApp call sequence for the C1 witness. -/
def c1Calls : List (App × Str × Int) :=
  [(appNginx, [], 50), (appNginx, s2l "1.18.0", 30), (appNginx, s2l "2.0", 80)]

theorem c1Calls_ne : c1Calls ≠ [] := by simp [c1Calls]

theorem c1Calls_names : ∀ x ∈ c1Calls, x.1.name = s2l "nginx" := by decide

theorem C1_addApp_detection_merge_witness :
    ∃ r : ResultApp,
      c1Calls.foldl (fun d x => addApp x.1 d x.2.1 x.2.2) [] = [(s2l "nginx", r)] ∧
      r.name = s2l "nginx" ∧
      r.version = firstNonEmptyVersion (c1Calls.map (fun x => x.2.1)) ∧
      (∀ x ∈ c1Calls, x.2.2 ≤ r.confidence) ∧
      (∃ x ∈ c1Calls, r.confidence = x.2.2) ∧
      r.categories = (c1Calls.head c1Calls_ne).1.categories ∧
      r.excludes = (c1Calls.head c1Calls_ne).1.excludes ∧
      r.implies = (c1Calls.head c1Calls_ne).1.implies :=
  C1_addApp_detection_merge (s2l "nginx") c1Calls c1Calls_names c1Calls_ne

/-!  ## Claim C8: resolveExcludes  -/

theorem lookupD_eraseD : ∀ (d : DM) (n m : Str),
    lookupD (eraseD d n) m = if m = n then none else lookupD d m
  | [], n, m => by simp [eraseD, lookupD]
  | e :: rest, n, m => by
    have ih := lookupD_eraseD rest n m
    by_cases hm : m = n
    · subst hm
      simp only [if_pos rfl] at ih ⊢
      by_cases he : e.1 = m
      · simpa [eraseD, he] using ih
      · simp [eraseD, he, lookupD, ih]
    · simp only [if_neg hm] at ih ⊢
      have hnm : ¬n = m := fun h => hm h.symm
      by_cases he : e.1 = n
      · have hem : ¬e.1 = m := fun h => hm (h.symm.trans he)
        simp [eraseD, he, lookupD, hem, hnm, ih]
      · by_cases hem : e.1 = m
        · simp [eraseD, he, lookupD, hem, hm, hnm, ih]
        · simp [eraseD, he, lookupD, hem, hm, hnm, ih]

theorem lookupD_eraseFold : ∀ (ps : List Pattern) (d : DM) (m : Str),
    lookupD (ps.foldl (fun d p => eraseD d p.str) d) m =
      if m ∈ ps.map Pattern.str then none else lookupD d m
  | [], d, m => by simp
  | p :: rest, d, m => by
    have ih := lookupD_eraseFold rest (eraseD d p.str) m
    rw [List.foldl_cons, ih, lookupD_eraseD]
    by_cases hm : m = p.str
    · by_cases hr : m ∈ rest.map Pattern.str <;> simp [hm, hr]
    · by_cases hr : m ∈ rest.map Pattern.str <;> simp [hm, hr]

theorem excludesFold_eq_flat : ∀ (pm : List (Str × List Pattern)) (d : DM),
    pm.foldl (fun d kv => kv.2.foldl (fun d p => eraseD d p.str) d) d =
      (flattenPats pm).foldl (fun d p => eraseD d p.str) d
  | [], d => rfl
  | kv :: rest, d => by
    have ih := excludesFold_eq_flat rest (kv.2.foldl (fun d p => eraseD d p.str) d)
    simp only [flattenPats, List.foldr_cons, List.foldl_cons, List.foldl_append] at ih ⊢
    exact ih

theorem eraseD_of_absent : ∀ (d : DM) (n : Str), lookupD d n = none → eraseD d n = d
  | [], _, _ => rfl
  | e :: rest, n, h => by
    by_cases he : e.1 = n
    · simp [lookupD, he] at h
    · simp only [lookupD, if_neg he] at h
      simp [eraseD, he, eraseD_of_absent rest n h]

theorem eraseFold_of_absent : ∀ (ps : List Pattern) (d : DM),
    (∀ p ∈ ps, lookupD d p.str = none) →
    ps.foldl (fun d p => eraseD d p.str) d = d
  | [], d, _ => rfl
  | p :: rest, d, h => by
    have h0 := h p (List.mem_cons_self p rest)
    rw [List.foldl_cons, eraseD_of_absent d p.str h0]
    exact eraseFold_of_absent rest d (fun q hq => h q (List.mem_cons_of_mem p hq))

/-- C8: the excludes pass removes exactly the detection-set entries whose
name equals some parsed pattern's str, and it is idempotent: a second
pass over its own output changes nothing. -/
theorem C8_excludes_exact_and_idempotent (c : Compile) (v : GoVal)
    (pm : List (Str × List Pattern)) (hp : parsePatterns c v = .ok pm) (d d' : DM)
    (hd : resolveExcludes c d v = .ok d') :
    (∀ n, lookupD d' n =
        if n ∈ (flattenPats pm).map Pattern.str then none else lookupD d n) ∧
      resolveExcludes c d' v = .ok d' := by
  have hd' : d' = (flattenPats pm).foldl (fun d p => eraseD d p.str) d := by
    rw [resolveExcludes, hp] at hd
    have := Except.ok.inj hd
    rw [← this, excludesFold_eq_flat]
  constructor
  · intro n
    rw [hd', lookupD_eraseFold]
  · rw [resolveExcludes, hp]
    have habs : ∀ p ∈ flattenPats pm, lookupD d' p.str = none := by
      intro p hp'
      rw [hd', lookupD_eraseFold, if_pos (List.mem_map_of_mem Pattern.str hp')]
    show Except.ok
        (pm.foldl (fun d kv => kv.2.foldl (fun d p => eraseD d p.str) d) d') = Except.ok d'
    rw [excludesFold_eq_flat, eraseFold_of_absent (flattenPats pm) d' habs]

/-- A minimal detection-set entry for witnesses. -/
def resApp0 (nm : Str) : ResultApp := ⟨nm, [], [], 100, GoVal.null, GoVal.null⟩

/-- A concrete detection set holding Apache and nginx. -/
def c8D : DM := [(s2l "Apache", resApp0 (s2l "Apache")), (s2l "nginx", resApp0 (s2l "nginx"))]

theorem C8_excludes_exact_and_idempotent_witness :
    (∀ n, lookupD [(s2l "Apache", resApp0 (s2l "Apache"))] n =
        if n ∈ (flattenPats [(s2l "main",
            [parseOnePattern trivialCompile (s2l "nginx")])]).map Pattern.str then none
        else lookupD c8D n) ∧
      resolveExcludes trivialCompile [(s2l "Apache", resApp0 (s2l "Apache"))]
          (GoVal.str (s2l "nginx")) =
        .ok [(s2l "Apache", resApp0 (s2l "Apache"))] :=
  C8_excludes_exact_and_idempotent trivialCompile (GoVal.str (s2l "nginx"))
    [(s2l "main", [parseOnePattern trivialCompile (s2l "nginx")])] rfl c8D
    [(s2l "Apache", resApp0 (s2l "Apache"))] rfl

/-!  ## Claims C4, C9, C3  -/

example : validateURL (s2l "http://example.com/") = true := by decide
example : validateURL (s2l "example.com/a") = true := by decide
example : validateURL (s2l "x") = false := by decide

/-- C4 counterexample: for the invalid input x Analyze still invokes the
scraper's Scrape (line 171 precedes the validateURL check of line 174),
refuting the claim that no scraping is performed on URL-validation
failure. -/
theorem C4_scrape_before_validation_counterexample :
    validateURL (s2l "x") = false ∧
      AnalyzeEvent.scrapeCall (s2l "x") ∈ analyzeEvents (s2l "x") := by
  constructor
  · decide
  · simp [analyzeEvents]

/-- C4 amended: for every input failing URL validation Analyze returns
the UrlNotValid error, but only after having invoked Scrape: the scrape
call is the sole operation preceding the early return. -/
theorem C4_invalid_url_error_after_scrape (url : Str) (h : validateURL url = false) :
    analyzeError url = some (s2l "UrlNotValid") ∧
      AnalyzeEvent.scrapeCall url ∈ analyzeEvents url ∧
      analyzeEvents url = [AnalyzeEvent.scrapeCall url] := by
  refine ⟨?_, ?_, ?_⟩ <;> simp [analyzeError, analyzeEvents, h]

theorem C4_invalid_url_error_after_scrape_witness :
    analyzeError (s2l "x") = some (s2l "UrlNotValid") ∧
      AnalyzeEvent.scrapeCall (s2l "x") ∈ analyzeEvents (s2l "x") ∧
      analyzeEvents (s2l "x") = [AnalyzeEvent.scrapeCall (s2l "x")] :=
  C4_invalid_url_error_after_scrape (s2l "x") (by decide)

/-- C9: the scraper Init error never influences the result of Init (its
binding is overwritten before any test), and in particular a failing
scraper Init together with a loadable embedded catalog still yields a
successfully constructed engine, contradicting the claim that the error
aborts construction. -/
theorem C9_scraper_init_error_dropped :
    (∀ (cfg : ConfigM) (w : InitWorld) (e : Option Str),
        InitGo cfg { w with scraperInitErr := e } = InitGo cfg w) ∧
      InitGo ⟨[], s2l "rod", true⟩
          ⟨some (s2l "ScraperInitFailure"), false, none, some (s2l "catalog"), fun _ => true⟩ =
        Except.ok ⟨s2l "rod", true⟩ := by
  constructor
  · intro cfg w e
    rfl
  · rfl

/-- A concrete model of the compiled regex a(b)? as FindAllStringSubmatch
behaves on the value ab: one match slice, whole match ab, group 1 b. -/
def ternaryRegexAB : RegexM :=
  ⟨fun v => decide (v = s2l "ab"), fun v => if v = s2l "ab" then [[s2l "ab", s2l "b"]] else []⟩

/-- The compiled pattern a(b)? with the ternary version template. -/
def patternAB : Pattern := ⟨s2l "a(b)?", some ternaryRegexAB, s2l "\\1?yes:no", 100⟩

/-- C3: with pattern a(b)?, version template backslash-1-ternary
(then-branch yes, else-branch no) and matched value ab, detectVersion
returns b?yes:no, not the documented ternary result yes: FindAllString
of the end-anchored ternary regex yields at most one match, so the
len == 3 guard never fires, and the group substitution then rewrites the
tag inside the unresolved ternary token. -/
theorem C3_ternary_never_resolves :
    detectVersion patternAB (s2l "ab") = s2l "b?yes:no" ∧
      ¬detectVersion patternAB (s2l "ab") = s2l "yes" := by
  constructor <;> decide

/-!  ## Claim C2: empty-body patterns  -/

theorem lookupD_append_some : ∀ (d l : DM) (n : Str) (r : ResultApp),
    lookupD d n = some r → lookupD (d ++ l) n = some r
  | [], _, _, _, h => by simp [lookupD] at h
  | e :: rest, l, n, r, h => by
    by_cases he : e.1 = n
    · simp only [lookupD, if_pos he] at h
      simp only [List.cons_append, lookupD, if_pos he]
      exact h
    · simp only [lookupD, if_neg he] at h
      simp only [List.cons_append, lookupD, if_neg he]
      exact lookupD_append_some rest l n r h

theorem lookupD_append_none : ∀ (d l : DM) (n : Str),
    lookupD d n = none → lookupD (d ++ l) n = lookupD l n
  | [], _, _, _ => rfl
  | e :: rest, l, n, h => by
    by_cases he : e.1 = n
    · simp [lookupD, if_pos he] at h
    · simp only [lookupD, if_neg he] at h
      simp only [List.cons_append, lookupD, if_neg he]
      exact lookupD_append_none rest l n h

theorem lookupD_updateD_self : ∀ (d : DM) (n v : Str) (cf : Int) (r : ResultApp),
    lookupD d n = some r → lookupD (updateD d n v cf) n = some (mergeApp r v cf)
  | [], _, _, _, _, h => by simp [lookupD] at h
  | e :: rest, n, v, cf, r, h => by
    by_cases he : e.1 = n
    · simp only [lookupD, if_pos he] at h
      simp only [updateD, if_pos he, lookupD, if_pos rfl]
      rw [Option.some.inj h]
    · simp only [lookupD, if_neg he] at h
      simp only [updateD, if_neg he, lookupD, if_neg he]
      exact lookupD_updateD_self rest n v cf r h

theorem lookupD_updateD_other : ∀ (d : DM) (n m v : Str) (cf : Int), ¬m = n →
    lookupD (updateD d n v cf) m = lookupD d m
  | [], _, _, _, _, _ => rfl
  | e :: rest, n, m, v, cf, hm => by
    by_cases he : e.1 = n
    · have hem : ¬e.1 = m := fun h => hm (h.symm.trans he)
      simp only [updateD, if_pos he, lookupD, if_neg hem]
    · by_cases hem : e.1 = m
      · simp only [updateD, if_neg he, lookupD, if_pos hem]
      · simp only [updateD, if_neg he, lookupD, if_neg hem]
        exact lookupD_updateD_other rest n m v cf hm

theorem addApp_lookup_self (app : App) (d : DM) (v : Str) (cf : Int) :
    (lookupD (addApp app d v cf) app.name).isSome = true := by
  unfold addApp
  cases h : lookupD d app.name with
  | none =>
    rw [lookupD_append_none d _ _ h]
    simp [lookupD]
  | some r =>
    rw [lookupD_updateD_self d _ _ _ r h]
    simp

theorem addApp_preserves_isSome (app : App) (d : DM) (v : Str) (cf : Int) (m : Str)
    (h : (lookupD d m).isSome = true) : (lookupD (addApp app d v cf) m).isSome = true := by
  unfold addApp
  cases hn : lookupD d app.name with
  | none =>
    cases hm : lookupD d m with
    | none => rw [hm] at h; simp at h
    | some r => rw [lookupD_append_some d _ m r hm]; simp
  | some r =>
    by_cases hma : m = app.name
    · subst hma
      rw [lookupD_updateD_self d _ _ _ r hn]
      simp
    · rw [lookupD_updateD_other d _ _ _ _ hma]
      exact h

theorem foldl_lookupD_isSome {α : Type} (nm : Str) (f : DM → α → DM)
    (hf : ∀ d a, (lookupD d nm).isSome = true → (lookupD (f d a) nm).isSome = true) :
    ∀ (l : List α) (d : DM), (lookupD d nm).isSome = true →
      (lookupD (l.foldl f d) nm).isSome = true
  | [], _, h => h
  | a :: rest, d, h => foldl_lookupD_isSome nm f hf rest (f d a) (hf d a h)

/-- The compiled form of an empty pattern string: the empty body field is
skipped, so str stays empty and no regex is ever compiled. -/
def emptyPat : Pattern := ⟨[], none, [], 100⟩

/-- A technology record with the given name and no patterns; its url
pattern is the empty string. -/
def mkAppBase (nm : Str) : App :=
  ⟨nm, [], [], GoVal.null, [], GoVal.null, GoVal.null, GoVal.null, GoVal.null, GoVal.null,
    GoVal.null, GoVal.null, GoVal.null⟩

/-- The technology with one empty-body html pattern. -/
def appEmptyHtml (nm : Str) : App := { mkAppBase nm with html := GoVal.str [] }

/-- The technology with one empty-body scripts pattern. -/
def appEmptyScripts (nm : Str) : App := { mkAppBase nm with scripts := GoVal.str [] }

/-- The technology with one empty-body pattern under header K. -/
def appEmptyHeader (nm K : Str) : App :=
  { mkAppBase nm with headers := GoVal.map [(K, GoVal.str [])] }

/-- The technology with one empty-body pattern under cookie K. -/
def appEmptyCookie (nm K : Str) : App :=
  { mkAppBase nm with cookies := GoVal.map [(K, GoVal.str [])] }

/-- The technology with one empty-body pattern under meta name K. -/
def appEmptyMeta (nm K : Str) : App :=
  { mkAppBase nm with meta := GoVal.map [(K, GoVal.str [])] }

/-- The technology with one empty-body pattern under DNS type K. -/
def appEmptyDNS (nm K : Str) : App :=
  { mkAppBase nm with dns := GoVal.map [(K, GoVal.str [])] }

/-- The technology with one empty-body pattern under JS property K. -/
def appEmptyJS (nm K : Str) : App :=
  { mkAppBase nm with js := GoVal.map [(K, GoVal.str [])] }

/-- The technology with one empty-body text pattern under DOM selector sel. -/
def appEmptyDom (nm sel : Str) : App :=
  { mkAppBase nm with dom := [(sel, [(s2l "text", GoVal.str [])])] }

theorem addStep_preserves (app : App) (nm : Str) (p : Pattern) :
    ∀ (d : DM) (hv : Str), (lookupD d nm).isSome = true →
      (lookupD (if p.str = [] ∨ matchesRegex p hv then
          addApp app d (detectVersion p hv) p.confidence else d) nm).isSome = true := by
  intro d hv h
  by_cases hc : p.str = [] ∨ matchesRegex p hv
  · rw [if_pos hc]
    exact addApp_preserves_isSome app d _ _ nm h
  · rw [if_neg hc]
    exact h

/-- C2 counterexample: an empty-body url pattern produces no detection
even though the URL evidence is present: parsePatterns skips empty
fields, so the compiled pattern's regex is nil and analyzeURL requires a
non-nil regex.  The same holds for html and scripts (see the amended
theorem). -/
theorem C2_empty_body_url_counterexample :
    (mkAppBase (s2l "Example")).url = [] ∧
      analyzeURL trivialCompile (mkAppBase (s2l "Example")) (s2l "http://example.com/") [] =
        .ok [] := ⟨rfl, rfl⟩

/-- C2 amended: an empty-body pattern detects presence only for the
keyed evidence kinds.  For headers, cookies, meta, dns (with at least
one value under the key), js (an error-free non-null evaluation) and dom
(a selector with a matching element), an empty-body pattern produces a
detection exactly when the key is present and never when it is absent;
for url, html and scripts an empty-body pattern never produces a
detection at all, because the compiler skips empty fields, the regex
stays nil, and those three matchers require a non-nil matching regex. -/
theorem C2_empty_body_amended (c : Compile) (nm K : Str) (d : DM) :
    (∀ url, analyzeURL c (mkAppBase nm) url d = .ok d) ∧
    (∀ html, analyzeHTML c (appEmptyHtml nm) html d = .ok d) ∧
    (∀ scripts, analyzeScripts c (appEmptyScripts nm) scripts d = .ok d) ∧
    (∀ (hs : List (Str × List Str)) (v : Str) (vs : List Str),
      lookupAssocL hs (toLowerStr K) = some (v :: vs) →
      ∃ d', analyzeHeaders c (appEmptyHeader nm K) hs d = .ok d' ∧
        (lookupD d' nm).isSome = true) ∧
    (∀ hs : List (Str × List Str), lookupAssocL hs (toLowerStr K) = none →
      analyzeHeaders c (appEmptyHeader nm K) hs d = .ok d) ∧
    (∀ (cs : List (Str × Str)) (v : Str), lookupAssocL cs (toLowerStr K) = some v →
      ∃ d', analyzeCookies c (appEmptyCookie nm K) cs d = .ok d' ∧
        (lookupD d' nm).isSome = true) ∧
    (∀ cs : List (Str × Str), lookupAssocL cs (toLowerStr K) = none →
      analyzeCookies c (appEmptyCookie nm K) cs d = .ok d) ∧
    (∀ (ms : List (Str × List Str)) (v : Str) (vs : List Str),
      lookupAssocL ms (toLowerStr K) = some (v :: vs) →
      ∃ d', analyzeMeta c (appEmptyMeta nm K) ms d = .ok d' ∧
        (lookupD d' nm).isSome = true) ∧
    (∀ ms : List (Str × List Str), lookupAssocL ms (toLowerStr K) = none →
      analyzeMeta c (appEmptyMeta nm K) ms d = .ok d) ∧
    (∀ (ds : List (Str × List Str)) (v : Str) (vs : List Str),
      lookupAssocL ds (toUpperStr K) = some (v :: vs) →
      ∃ d', analyseDNS c (appEmptyDNS nm K) ds d = .ok d' ∧
        (lookupD d' nm).isSome = true) ∧
    (∀ ds : List (Str × List Str), lookupAssocL ds (toUpperStr K) = none →
      analyseDNS c (appEmptyDNS nm K) ds d = .ok d) ∧
    (∀ (ev : Str → Option (Option Str)) (v : Str), ev K = some (some v) →
      ∃ d', analyseJS c (appEmptyJS nm K) ev d = .ok d' ∧
        (lookupD d' nm).isSome = true) ∧
    (∀ ev : Str → Option (Option Str), ev K = none →
      analyseJS c (appEmptyJS nm K) ev d = .ok d) ∧
    (∀ ev : Str → Option (Option Str), ev K = some none →
      analyseJS c (appEmptyJS nm K) ev d = .ok d) ∧
    (∀ (df : Str → Option DomElem) (el : DomElem), df K = some el →
      ∃ d', analyseDom c (appEmptyDom nm K) df d = .ok d' ∧
        (lookupD d' nm).isSome = true) ∧
    (∀ df : Str → Option DomElem, df K = none →
      analyseDom c (appEmptyDom nm K) df d = .ok d) := by
  refine ⟨fun url => rfl, fun html => rfl, fun scripts => rfl,
    ?_, ?_, ?_, ?_, ?_, ?_, ?_, ?_, ?_, ?_, ?_, ?_, ?_⟩
  · intro hs v vs hlook
    have heq : analyzeHeaders c (appEmptyHeader nm K) hs d = .ok
        (match lookupAssocL hs (toLowerStr K) with
         | none => d
         | some values => values.foldl (fun d hv =>
             if emptyPat.str = [] ∨ matchesRegex emptyPat hv then
               addApp (appEmptyHeader nm K) d (detectVersion emptyPat hv) emptyPat.confidence
             else d) d) := rfl
    rw [hlook] at heq
    have heq2 : analyzeHeaders c (appEmptyHeader nm K) hs d = .ok
        ((v :: vs).foldl (fun d hv =>
          if emptyPat.str = [] ∨ matchesRegex emptyPat hv then
            addApp (appEmptyHeader nm K) d (detectVersion emptyPat hv) emptyPat.confidence
          else d) d) := heq
    refine ⟨_, heq2, ?_⟩
    rw [List.foldl_cons]
    have h1 : (lookupD (addApp (appEmptyHeader nm K) d (detectVersion emptyPat v)
        emptyPat.confidence) nm).isSome = true := addApp_lookup_self (appEmptyHeader nm K) d _ _
    exact foldl_lookupD_isSome nm _ (addStep_preserves (appEmptyHeader nm K) nm emptyPat) vs _ h1
  · intro hs hlook
    have heq : analyzeHeaders c (appEmptyHeader nm K) hs d = .ok
        (match lookupAssocL hs (toLowerStr K) with
         | none => d
         | some values => values.foldl (fun d hv =>
             if emptyPat.str = [] ∨ matchesRegex emptyPat hv then
               addApp (appEmptyHeader nm K) d (detectVersion emptyPat hv) emptyPat.confidence
             else d) d) := rfl
    rw [hlook] at heq
    exact heq
  · intro cs v hlook
    have heq : analyzeCookies c (appEmptyCookie nm K) cs d = .ok
        (match lookupAssocL cs (toLowerStr K) with
         | none => d
         | some cookie =>
           if emptyPat.str = [] ∨ matchesRegex emptyPat cookie then
             addApp (appEmptyCookie nm K) d (detectVersion emptyPat cookie) emptyPat.confidence
           else d) := rfl
    rw [hlook] at heq
    have heq2 : analyzeCookies c (appEmptyCookie nm K) cs d = .ok
        (if emptyPat.str = [] ∨ matchesRegex emptyPat v then
          addApp (appEmptyCookie nm K) d (detectVersion emptyPat v) emptyPat.confidence
        else d) := heq
    exact ⟨addApp (appEmptyCookie nm K) d (detectVersion emptyPat v) emptyPat.confidence,
      heq2, addApp_lookup_self (appEmptyCookie nm K) d _ _⟩
  · intro cs hlook
    have heq : analyzeCookies c (appEmptyCookie nm K) cs d = .ok
        (match lookupAssocL cs (toLowerStr K) with
         | none => d
         | some cookie =>
           if emptyPat.str = [] ∨ matchesRegex emptyPat cookie then
             addApp (appEmptyCookie nm K) d (detectVersion emptyPat cookie) emptyPat.confidence
           else d) := rfl
    rw [hlook] at heq
    exact heq
  · intro ms v vs hlook
    have heq : analyzeMeta c (appEmptyMeta nm K) ms d = .ok
        (match lookupAssocL ms (toLowerStr K) with
         | none => d
         | some values => values.foldl (fun d mv =>
             if emptyPat.str = [] ∨ matchesRegex emptyPat mv then
               addApp (appEmptyMeta nm K) d (detectVersion emptyPat mv) emptyPat.confidence
             else d) d) := rfl
    rw [hlook] at heq
    have heq2 : analyzeMeta c (appEmptyMeta nm K) ms d = .ok
        ((v :: vs).foldl (fun d mv =>
          if emptyPat.str = [] ∨ matchesRegex emptyPat mv then
            addApp (appEmptyMeta nm K) d (detectVersion emptyPat mv) emptyPat.confidence
          else d) d) := heq
    refine ⟨_, heq2, ?_⟩
    rw [List.foldl_cons]
    have h1 : (lookupD (addApp (appEmptyMeta nm K) d (detectVersion emptyPat v)
        emptyPat.confidence) nm).isSome = true := addApp_lookup_self (appEmptyMeta nm K) d _ _
    exact foldl_lookupD_isSome nm _ (addStep_preserves (appEmptyMeta nm K) nm emptyPat) vs _ h1
  · intro ms hlook
    have heq : analyzeMeta c (appEmptyMeta nm K) ms d = .ok
        (match lookupAssocL ms (toLowerStr K) with
         | none => d
         | some values => values.foldl (fun d mv =>
             if emptyPat.str = [] ∨ matchesRegex emptyPat mv then
               addApp (appEmptyMeta nm K) d (detectVersion emptyPat mv) emptyPat.confidence
             else d) d) := rfl
    rw [hlook] at heq
    exact heq
  · intro ds v vs hlook
    have heq : analyseDNS c (appEmptyDNS nm K) ds d = .ok
        (match lookupAssocL ds (toUpperStr K) with
         | none => d
         | some values => values.foldl (fun d dv =>
             if emptyPat.str = [] ∨ matchesRegex emptyPat dv then
               addApp (appEmptyDNS nm K) d (detectVersion emptyPat dv) emptyPat.confidence
             else d) d) := rfl
    rw [hlook] at heq
    have heq2 : analyseDNS c (appEmptyDNS nm K) ds d = .ok
        ((v :: vs).foldl (fun d dv =>
          if emptyPat.str = [] ∨ matchesRegex emptyPat dv then
            addApp (appEmptyDNS nm K) d (detectVersion emptyPat dv) emptyPat.confidence
          else d) d) := heq
    refine ⟨_, heq2, ?_⟩
    rw [List.foldl_cons]
    have h1 : (lookupD (addApp (appEmptyDNS nm K) d (detectVersion emptyPat v)
        emptyPat.confidence) nm).isSome = true := addApp_lookup_self (appEmptyDNS nm K) d _ _
    exact foldl_lookupD_isSome nm _ (addStep_preserves (appEmptyDNS nm K) nm emptyPat) vs _ h1
  · intro ds hlook
    have heq : analyseDNS c (appEmptyDNS nm K) ds d = .ok
        (match lookupAssocL ds (toUpperStr K) with
         | none => d
         | some values => values.foldl (fun d dv =>
             if emptyPat.str = [] ∨ matchesRegex emptyPat dv then
               addApp (appEmptyDNS nm K) d (detectVersion emptyPat dv) emptyPat.confidence
             else d) d) := rfl
    rw [hlook] at heq
    exact heq
  · intro ev v hjs
    have heq : analyseJS c (appEmptyJS nm K) ev d = .ok
        (match ev K with
         | some (some value) =>
           if emptyPat.str = [] ∨ matchesRegex emptyPat value then
             addApp (appEmptyJS nm K) d (detectVersion emptyPat value) emptyPat.confidence
           else d
         | _ => d) := rfl
    rw [hjs] at heq
    have heq2 : analyseJS c (appEmptyJS nm K) ev d = .ok
        (if emptyPat.str = [] ∨ matchesRegex emptyPat v then
          addApp (appEmptyJS nm K) d (detectVersion emptyPat v) emptyPat.confidence
        else d) := heq
    exact ⟨addApp (appEmptyJS nm K) d (detectVersion emptyPat v) emptyPat.confidence,
      heq2, addApp_lookup_self (appEmptyJS nm K) d _ _⟩
  · intro ev hjs
    have heq : analyseJS c (appEmptyJS nm K) ev d = .ok
        (match ev K with
         | some (some value) =>
           if emptyPat.str = [] ∨ matchesRegex emptyPat value then
             addApp (appEmptyJS nm K) d (detectVersion emptyPat value) emptyPat.confidence
           else d
         | _ => d) := rfl
    rw [hjs] at heq
    exact heq
  · intro ev hjs
    have heq : analyseJS c (appEmptyJS nm K) ev d = .ok
        (match ev K with
         | some (some value) =>
           if emptyPat.str = [] ∨ matchesRegex emptyPat value then
             addApp (appEmptyJS nm K) d (detectVersion emptyPat value) emptyPat.confidence
           else d
         | _ => d) := rfl
    rw [hjs] at heq
    exact heq
  · intro df el hdf
    refine ⟨addApp (appEmptyDom nm K) d (detectVersion emptyPat el.text) emptyPat.confidence,
      ?_, addApp_lookup_self (appEmptyDom nm K) d _ _⟩
    simp only [analyseDom, appEmptyDom, mkAppBase, List.foldlM]
    rw [hdf]
    rfl
  · intro df hdf
    show analyseDom c (appEmptyDom nm K) df d = .ok d
    simp only [analyseDom, appEmptyDom, mkAppBase, List.foldlM]
    rw [hdf]
    rfl

theorem C2_empty_body_amended_witness :
    ∃ d', analyzeHeaders trivialCompile (appEmptyHeader (s2l "T") (s2l "Server"))
        [(s2l "server", [s2l "nginx"])] [] = .ok d' ∧
      (lookupD d' (s2l "T")).isSome = true :=
  (C2_empty_body_amended trivialCompile (s2l "T") (s2l "Server") []).2.2.2.1
    [(s2l "server", [s2l "nginx"])] (s2l "nginx") [] (by decide)

/-!  ## Claim C7: resolveImplies  -/

theorem lookupAssocL_mem {β : Type} : ∀ (l : List (Str × β)) (n : Str) (b : β),
    lookupAssocL l n = some b → (n, b) ∈ l
  | [], _, _, h => by simp [lookupAssocL] at h
  | (a, cv) :: rest, n, b, h => by
    by_cases he : a = n
    · subst he
      simp [lookupAssocL] at h
      subst h
      exact List.mem_cons_self _ _
    · simp only [lookupAssocL, if_neg he] at h
      exact List.mem_cons_of_mem _ (lookupAssocL_mem rest n b h)

theorem impliesLoop_preserve (c : Compile) (apps : List (Str × App)) :
    ∀ (fuel : Nat) (ps : List Pattern) (d d2 : DM),
      impliesLoop c apps fuel d ps = .ok d2 →
      ∀ (n : Str) (r : ResultApp), lookupD d n = some r → lookupD d2 n = some r := by
  intro fuel
  induction fuel using Nat.strong_induction_on with
  | _ fuel ihf =>
    intro ps
    induction ps with
    | nil =>
      intro d d2 hok n r hl
      simp only [impliesLoop] at hok
      rw [← Except.ok.inj hok]
      exact hl
    | cons p rest ihp =>
      intro d d2 hok n r hl
      simp only [impliesLoop] at hok
      cases hla : lookupAssocL apps p.str with
      | none =>
        simp only [hla] at hok
        exact ihp d d2 hok n r hl
      | some app =>
        simp only [hla] at hok
        by_cases hdet : (lookupD d p.str).isSome = true
        · rw [if_pos hdet] at hok
          exact ihp d d2 hok n r hl
        · rw [if_neg hdet] at hok
          have hl' : lookupD (d ++ [(p.str, impliedApp app p)]) n = some r :=
            lookupD_append_some d _ n r hl
          by_cases hnull : app.implies.isNull = true
          · rw [if_pos hnull] at hok
            exact ihp _ d2 hok n r hl'
          · rw [if_neg hnull] at hok
            cases fuel with
            | zero => simp at hok
            | succ f =>
              cases hpp : parsePatterns c app.implies with
              | error e =>
                simp only [hpp] at hok
                exact Except.noConfusion hok
              | ok pm =>
                simp only [hpp] at hok
                cases hinner : impliesLoop c apps f (d ++ [(p.str, impliedApp app p)])
                    (flattenPats pm) with
                | error e =>
                  simp only [hinner] at hok
                  exact Except.noConfusion hok
                | ok dmid =>
                  simp only [hinner] at hok
                  have h2 := ihf f (Nat.lt_succ_self f) (flattenPats pm) _ dmid hinner n r hl'
                  exact ihp dmid d2 hok n r h2

/-- Detection-set key uniqueness. -/
def keysNodup (d : DM) : Prop := (d.map Prod.fst).Nodup

theorem lookupD_none_not_mem : ∀ (d : DM) (n : Str),
    lookupD d n = none → n ∉ d.map Prod.fst
  | [], _, _ => by simp
  | e :: rest, n, h => by
    by_cases he : e.1 = n
    · simp [lookupD, he] at h
    · simp only [lookupD, if_neg he] at h
      simp only [List.map_cons, List.mem_cons, not_or]
      exact ⟨fun hn => he hn.symm, lookupD_none_not_mem rest n h⟩

theorem lookupD_append_none_left (d l : DM) (n : Str)
    (h : lookupD (d ++ l) n = none) : lookupD d n = none := by
  cases hv : lookupD d n with
  | none => rfl
  | some r => rw [lookupD_append_some d l n r hv] at h; exact Option.noConfusion h

theorem keysNodup_insert (d : DM) (k : Str) (x : ResultApp) (hd : keysNodup d)
    (hk : lookupD d k = none) : keysNodup (d ++ [(k, x)]) := by
  have hnm := lookupD_none_not_mem d k hk
  simp only [keysNodup, List.map_append, List.map_cons, List.map_nil] at hd ⊢
  simp [List.nodup_append, hd, hnm]

theorem length_filter_mono {α : Type} (p q : α → Bool) :
    ∀ l : List α, (∀ a ∈ l, p a = true → q a = true) →
      (l.filter p).length ≤ (l.filter q).length
  | [], _ => Nat.le_refl 0
  | a :: rest, h => by
    have ih := length_filter_mono p q rest (fun x hx => h x (List.mem_cons_of_mem _ hx))
    by_cases hp : p a = true
    · have hq := h a (List.mem_cons_self _ _) hp
      rw [List.filter_cons_of_pos hp, List.filter_cons_of_pos hq]
      simpa using ih
    · rw [List.filter_cons_of_neg hp]
      by_cases hq : q a = true
      · rw [List.filter_cons_of_pos hq]
        simp only [List.length_cons]
        omega
      · rw [List.filter_cons_of_neg hq]
        exact ih

theorem length_filter_lt {α : Type} (p q : α → Bool) (a : α) :
    ∀ l : List α, a ∈ l → p a = false → q a = true →
      (∀ x ∈ l, p x = true → q x = true) →
      (l.filter p).length < (l.filter q).length
  | [], ha, _, _, _ => absurd ha (List.not_mem_nil a)
  | b :: rest, ha, hpa, hqa, h => by
    rcases List.mem_cons.mp ha with rfl | ha'
    · have hmono := length_filter_mono p q rest (fun x hx => h x (List.mem_cons_of_mem _ hx))
      rw [List.filter_cons_of_neg (by simp [hpa]), List.filter_cons_of_pos (by simp [hqa])]
      simp only [List.length_cons]
      omega
    · have hrest := fun x hx => h x (List.mem_cons_of_mem _ hx)
      have ih := length_filter_lt p q a rest ha' hpa hqa hrest
      by_cases hpb : p b = true
      · have hqb := h b (List.mem_cons_self _ _) hpb
        simp only [List.filter_cons, hpb, hqb, if_pos, List.length_cons]
        omega
      · simp only [Bool.not_eq_true] at hpb
        simp only [List.filter_cons, hpb, Bool.false_eq_true, if_false]
        by_cases hqb : q b = true
        · rw [hqb]
          simp only [if_pos, List.length_cons]
          omega
        · simp only [Bool.not_eq_true] at hqb
          rw [hqb]
          simp only [Bool.false_eq_true, if_false]
          exact ih

theorem length_filter_pos {α : Type} (p : α → Bool) (a : α) (l : List α)
    (ha : a ∈ l) (hp : p a = true) : 1 ≤ (l.filter p).length := by
  have : a ∈ l.filter p := List.mem_filter.mpr ⟨ha, hp⟩
  cases hf : l.filter p with
  | nil => rw [hf] at this; exact absurd this (List.not_mem_nil a)
  | cons x xs => simp

theorem mem_keys_of_lookupAssocL {β : Type} (l : List (Str × β)) (n : Str) (b : β)
    (h : lookupAssocL l n = some b) : n ∈ l.map Prod.fst := by
  have := lookupAssocL_mem l n b h
  exact List.mem_map_of_mem Prod.fst this

theorem undet_mono (apps : List (Str × App)) (d d' : DM)
    (h : ∀ n, (lookupD d n).isSome = true → (lookupD d' n).isSome = true) :
    undetCount apps d' ≤ undetCount apps d := by
  unfold undetCount
  refine length_filter_mono _ _ _ (fun n _ hp => ?_)
  simp only [Option.isNone_iff_eq_none] at hp ⊢
  cases hv : lookupD d n with
  | none => rfl
  | some r =>
    have := h n (by rw [hv]; rfl)
    rw [hp] at this
    exact absurd this (by simp)

theorem undet_insert_lt (apps : List (Str × App)) (d : DM) (k : Str) (x : ResultApp)
    (app : App) (hk : lookupAssocL apps k = some app) (hnd : lookupD d k = none) :
    undetCount apps (d ++ [(k, x)]) < undetCount apps d := by
  unfold undetCount
  refine length_filter_lt _ _ k _ (mem_keys_of_lookupAssocL apps k app hk) ?_ ?_ ?_
  · have : lookupD (d ++ [(k, x)]) k = some x := by
      rw [lookupD_append_none d _ k hnd]
      simp [lookupD]
    simp [this]
  · simp [hnd]
  · intro n _ hp
    simp only [Option.isNone_iff_eq_none] at hp ⊢
    exact lookupD_append_none_left d _ n hp

theorem impliesLoop_shape (c : Compile) (apps : List (Str × App)) :
    ∀ (fuel : Nat) (ps : List Pattern) (d d2 : DM),
      impliesLoop c apps fuel d ps = .ok d2 →
      ∀ (n : Str) (r : ResultApp), lookupD d n = none → lookupD d2 n = some r →
        ∃ app p, lookupAssocL apps n = some app ∧ p.str = n ∧ r = impliedApp app p := by
  intro fuel
  induction fuel using Nat.strong_induction_on with
  | _ fuel ihf =>
    intro ps
    induction ps with
    | nil =>
      intro d d2 hok n r hnone hsome
      simp only [impliesLoop] at hok
      rw [← Except.ok.inj hok, hnone] at hsome
      exact Option.noConfusion hsome
    | cons p rest ihp =>
      intro d d2 hok n r hnone hsome
      simp only [impliesLoop] at hok
      cases hla : lookupAssocL apps p.str with
      | none =>
        simp only [hla] at hok
        exact ihp d d2 hok n r hnone hsome
      | some app =>
        simp only [hla] at hok
        by_cases hdet : (lookupD d p.str).isSome = true
        · rw [if_pos hdet] at hok
          exact ihp d d2 hok n r hnone hsome
        · rw [if_neg hdet] at hok
          by_cases hn : n = p.str
          · have hla' : lookupAssocL apps n = some app := by rw [hn]; exact hla
            have hlook' : lookupD (d ++ [(p.str, impliedApp app p)]) n =
                some (impliedApp app p) := by
              rw [lookupD_append_none d _ n hnone]
              simp [lookupD, if_pos hn.symm]
            have hfinal : lookupD d2 n = some (impliedApp app p) := by
              by_cases hnull : app.implies.isNull = true
              · rw [if_pos hnull] at hok
                exact impliesLoop_preserve c apps fuel rest _ d2 hok n _ hlook'
              · rw [if_neg hnull] at hok
                cases fuel with
                | zero => exact Except.noConfusion hok
                | succ f =>
                  cases hpp : parsePatterns c app.implies with
                  | error e =>
                    simp only [hpp] at hok
                    exact Except.noConfusion hok
                  | ok pm =>
                    simp only [hpp] at hok
                    cases hinner : impliesLoop c apps f (d ++ [(p.str, impliedApp app p)])
                        (flattenPats pm) with
                    | error e =>
                      simp only [hinner] at hok
                      exact Except.noConfusion hok
                    | ok dmid =>
                      simp only [hinner] at hok
                      have h1 := impliesLoop_preserve c apps f _ _ dmid hinner n _ hlook'
                      exact impliesLoop_preserve c apps (f + 1) rest dmid d2 hok n _ h1
            rw [hfinal] at hsome
            exact ⟨app, p, hla', hn.symm, (Option.some.inj hsome).symm⟩
          · have hps : ¬p.str = n := fun h => hn h.symm
            have hnone' : lookupD (d ++ [(p.str, impliedApp app p)]) n = none := by
              rw [lookupD_append_none d _ n hnone]
              simp [lookupD, hps]
            by_cases hnull : app.implies.isNull = true
            · rw [if_pos hnull] at hok
              exact ihp _ d2 hok n r hnone' hsome
            · rw [if_neg hnull] at hok
              cases fuel with
              | zero => exact Except.noConfusion hok
              | succ f =>
                cases hpp : parsePatterns c app.implies with
                | error e =>
                  simp only [hpp] at hok
                  exact Except.noConfusion hok
                | ok pm =>
                  simp only [hpp] at hok
                  cases hinner : impliesLoop c apps f (d ++ [(p.str, impliedApp app p)])
                      (flattenPats pm) with
                  | error e =>
                    simp only [hinner] at hok
                    exact Except.noConfusion hok
                  | ok dmid =>
                    simp only [hinner] at hok
                    cases hmid : lookupD dmid n with
                    | none => exact ihp dmid d2 hok n r hmid hsome
                    | some r' =>
                      have hshape := ihf f (Nat.lt_succ_self f) (flattenPats pm) _ dmid hinner
                        n r' hnone' hmid
                      have hpres := impliesLoop_preserve c apps (f + 1) rest dmid d2 hok n r' hmid
                      rw [hpres] at hsome
                      rw [Option.some.inj hsome] at hshape
                      exact hshape

theorem impliesLoop_nodup (c : Compile) (apps : List (Str × App)) :
    ∀ (fuel : Nat) (ps : List Pattern) (d d2 : DM),
      impliesLoop c apps fuel d ps = .ok d2 → keysNodup d → keysNodup d2 := by
  intro fuel
  induction fuel using Nat.strong_induction_on with
  | _ fuel ihf =>
    intro ps
    induction ps with
    | nil =>
      intro d d2 hok hd
      simp only [impliesLoop] at hok
      rw [← Except.ok.inj hok]
      exact hd
    | cons p rest ihp =>
      intro d d2 hok hd
      simp only [impliesLoop] at hok
      cases hla : lookupAssocL apps p.str with
      | none =>
        simp only [hla] at hok
        exact ihp d d2 hok hd
      | some app =>
        simp only [hla] at hok
        by_cases hdet : (lookupD d p.str).isSome = true
        · rw [if_pos hdet] at hok
          exact ihp d d2 hok hd
        · rw [if_neg hdet] at hok
          have hnd : lookupD d p.str = none := by
            cases hval : lookupD d p.str with
            | none => rfl
            | some _ => rw [hval] at hdet; simp at hdet
          have hd' : keysNodup (d ++ [(p.str, impliedApp app p)]) :=
            keysNodup_insert d p.str _ hd hnd
          by_cases hnull : app.implies.isNull = true
          · rw [if_pos hnull] at hok
            exact ihp _ d2 hok hd'
          · rw [if_neg hnull] at hok
            cases fuel with
            | zero => exact Except.noConfusion hok
            | succ f =>
              cases hpp : parsePatterns c app.implies with
              | error e =>
                simp only [hpp] at hok
                exact Except.noConfusion hok
              | ok pm =>
                simp only [hpp] at hok
                cases hinner : impliesLoop c apps f (d ++ [(p.str, impliedApp app p)])
                    (flattenPats pm) with
                | error e =>
                  simp only [hinner] at hok
                  exact Except.noConfusion hok
                | ok dmid =>
                  simp only [hinner] at hok
                  have h1 := ihf f (Nat.lt_succ_self f) (flattenPats pm) _ dmid hinner hd'
                  exact ihp dmid d2 hok h1

/-- Whether an Except value is a success. -/
def isOkE {α : Type} : Except Unit α → Bool
  | .ok _ => true
  | .error _ => false

/-- Every catalog technology whose implies field is non-nil carries a
pattern source that parses without panicking. -/
def impliesParseOk (c : Compile) (apps : List (Str × App)) : Prop :=
  ∀ e ∈ apps, e.2.implies.isNull = false → isOkE (parsePatterns c e.2.implies) = true

theorem impliesLoop_preserve_isSome (c : Compile) (apps : List (Str × App))
    (fuel : Nat) (ps : List Pattern) (d d2 : DM) (hok : impliesLoop c apps fuel d ps = .ok d2) :
    ∀ n, (lookupD d n).isSome = true → (lookupD d2 n).isSome = true := by
  intro n h
  cases hv : lookupD d n with
  | none => rw [hv] at h; exact Bool.noConfusion h
  | some r => rw [impliesLoop_preserve c apps fuel ps d d2 hok n r hv]; rfl

theorem impliesLoop_ok (c : Compile) (apps : List (Str × App))
    (hpa : impliesParseOk c apps) :
    ∀ (fuel : Nat) (ps : List Pattern) (d : DM), undetCount apps d ≤ fuel →
      ∃ d2, impliesLoop c apps fuel d ps = .ok d2 := by
  intro fuel
  induction fuel using Nat.strong_induction_on with
  | _ fuel ihf =>
    intro ps
    induction ps with
    | nil =>
      intro d _
      exact ⟨d, by simp [impliesLoop]⟩
    | cons p rest ihp =>
      intro d hb
      simp only [impliesLoop]
      cases hla : lookupAssocL apps p.str with
      | none =>
        simp only [hla]
        exact ihp d hb
      | some app =>
        simp only [hla]
        by_cases hdet : (lookupD d p.str).isSome = true
        · simp only [if_pos hdet]
          exact ihp d hb
        · simp only [if_neg hdet]
          have hnd : lookupD d p.str = none := by
            cases hval : lookupD d p.str with
            | none => rfl
            | some _ => rw [hval] at hdet; simp at hdet
          have hlt : undetCount apps (d ++ [(p.str, impliedApp app p)]) < undetCount apps d :=
            undet_insert_lt apps d p.str _ app hla hnd
          by_cases hnull : app.implies.isNull = true
          · simp only [if_pos hnull]
            exact ihp _ (Nat.le_trans (Nat.le_of_lt hlt) hb)
          · simp only [if_neg hnull]
            have hone : 1 ≤ undetCount apps d := by
              unfold undetCount
              refine length_filter_pos _ p.str _
                (mem_keys_of_lookupAssocL apps p.str app hla) ?_
              simp [hnd]
            cases fuel with
            | zero => omega
            | succ f =>
              have hnf : app.implies.isNull = false := by
                revert hnull
                cases app.implies.isNull <;> simp
              have hpo := hpa (p.str, app) (lookupAssocL_mem apps p.str app hla) hnf
              obtain ⟨pm, hpm⟩ : ∃ pm, parsePatterns c app.implies = .ok pm := by
                cases hpp : parsePatterns c app.implies with
                | error e => rw [hpp] at hpo; simp [isOkE] at hpo
                | ok pm => exact ⟨pm, rfl⟩
              simp only [hpm]
              have hb' : undetCount apps (d ++ [(p.str, impliedApp app p)]) ≤ f := by omega
              obtain ⟨dmid, hmid⟩ := ihf f (Nat.lt_succ_self f) (flattenPats pm) _ hb'
              simp only [hmid]
              have hbm : undetCount apps dmid ≤ f + 1 := by
                have := undet_mono apps _ dmid
                  (impliesLoop_preserve_isSome c apps f _ _ dmid hmid)
                omega
              exact ihp dmid hbm

theorem impliesLoop_stable (c : Compile) (apps : List (Str × App))
    (hpa : impliesParseOk c apps) :
    ∀ (fuel1 fuel2 : Nat) (ps : List Pattern) (d : DM),
      undetCount apps d ≤ fuel1 → undetCount apps d ≤ fuel2 →
      impliesLoop c apps fuel1 d ps = impliesLoop c apps fuel2 d ps := by
  intro fuel1
  induction fuel1 using Nat.strong_induction_on with
  | _ fuel1 ihf =>
    intro fuel2 ps
    induction ps with
    | nil =>
      intro d _ _
      simp [impliesLoop]
    | cons p rest ihp =>
      intro d h1 h2
      simp only [impliesLoop]
      cases hla : lookupAssocL apps p.str with
      | none =>
        simp only [hla]
        exact ihp d h1 h2
      | some app =>
        simp only [hla]
        by_cases hdet : (lookupD d p.str).isSome = true
        · simp only [if_pos hdet]
          exact ihp d h1 h2
        · simp only [if_neg hdet]
          have hnd : lookupD d p.str = none := by
            cases hval : lookupD d p.str with
            | none => rfl
            | some _ => rw [hval] at hdet; simp at hdet
          have hlt : undetCount apps (d ++ [(p.str, impliedApp app p)]) < undetCount apps d :=
            undet_insert_lt apps d p.str _ app hla hnd
          by_cases hnull : app.implies.isNull = true
          · simp only [if_pos hnull]
            exact ihp _ (Nat.le_trans (Nat.le_of_lt hlt) h1) (Nat.le_trans (Nat.le_of_lt hlt) h2)
          · simp only [if_neg hnull]
            have hone : 1 ≤ undetCount apps d := by
              unfold undetCount
              refine length_filter_pos _ p.str _
                (mem_keys_of_lookupAssocL apps p.str app hla) ?_
              simp [hnd]
            cases fuel1 with
            | zero => omega
            | succ f1 =>
              cases fuel2 with
              | zero => omega
              | succ g =>
                have hnf : app.implies.isNull = false := by
                  revert hnull
                  cases app.implies.isNull <;> simp
                have hpo := hpa (p.str, app) (lookupAssocL_mem apps p.str app hla) hnf
                obtain ⟨pm, hpm⟩ : ∃ pm, parsePatterns c app.implies = .ok pm := by
                  cases hpp : parsePatterns c app.implies with
                  | error e => rw [hpp] at hpo; simp [isOkE] at hpo
                  | ok pm => exact ⟨pm, rfl⟩
                simp only [hpm]
                have hb1 : undetCount apps (d ++ [(p.str, impliedApp app p)]) ≤ f1 := by omega
                have hb2 : undetCount apps (d ++ [(p.str, impliedApp app p)]) ≤ g := by omega
                have hinner_eq := ihf f1 (Nat.lt_succ_self f1) g (flattenPats pm)
                  (d ++ [(p.str, impliedApp app p)]) hb1 hb2
                rw [hinner_eq]
                cases hres : impliesLoop c apps g (d ++ [(p.str, impliedApp app p)])
                    (flattenPats pm) with
                | error e => simp only [hres]
                | ok dmid =>
                  simp only [hres]
                  have hum := undet_mono apps _ dmid
                    (impliesLoop_preserve_isSome c apps g _ _ dmid hres)
                  exact ihp dmid (by omega) (by omega)

/-- C7: resolveImplies inserts a pattern's target only when its str
names a known catalog technology that is not already detected, the new
entry carries the pattern's version and confidence together with the
catalog record's categories and pending rules (impliedApp), existing
entries are never changed, key uniqueness is preserved (each technology
is inserted at most once), and with recursion depth at least the number
of undetected catalog technologies the recursion terminates: the result
is ok and independent of any larger depth, even on cyclic implies. -/
theorem C7_implies_guarded_and_terminating (c : Compile) (apps : List (Str × App))
    (d : DM) (v : GoVal) (pm : List (Str × List Pattern)) (fuel : Nat)
    (hpa : impliesParseOk c apps)
    (hvp : parsePatterns c v = .ok pm)
    (hfuel : undetCount apps d ≤ fuel) :
    (∃ d2, resolveImplies c apps fuel d v = .ok d2 ∧
        (∀ n r, lookupD d n = some r → lookupD d2 n = some r) ∧
        (∀ n r, lookupD d n = none → lookupD d2 n = some r →
          ∃ app p, lookupAssocL apps n = some app ∧ p.str = n ∧ r = impliedApp app p) ∧
        (keysNodup d → keysNodup d2)) ∧
      ∀ fuel2, undetCount apps d ≤ fuel2 →
        resolveImplies c apps fuel2 d v = resolveImplies c apps fuel d v := by
  constructor
  · obtain ⟨d2, h2⟩ := impliesLoop_ok c apps hpa fuel (flattenPats pm) d hfuel
    refine ⟨d2, ?_, ?_, ?_, ?_⟩
    · unfold resolveImplies
      rw [hvp]
      exact h2
    · exact fun n r => impliesLoop_preserve c apps fuel _ d d2 h2 n r
    · exact fun n r => impliesLoop_shape c apps fuel _ d d2 h2 n r
    · exact impliesLoop_nodup c apps fuel _ d d2 h2
  · intro fuel2 hf2
    unfold resolveImplies
    rw [hvp]
    exact impliesLoop_stable c apps hpa fuel2 fuel (flattenPats pm) d hf2 hfuel

/-- Technology A implying B, for the cyclic witness. -/
def appA : App := { mkAppBase (s2l "A") with implies := GoVal.str (s2l "B") }

/-- Technology B implying A, closing the cycle. -/
def appB : App := { mkAppBase (s2l "B") with implies := GoVal.str (s2l "A") }

/-- The cyclic two-technology catalog. -/
def appsCyc : List (Str × App) := [(s2l "A", appA), (s2l "B", appB)]

/-- The detection set in which only A was matched. -/
def dA : DM := [(s2l "A", resApp0 (s2l "A"))]

theorem C7_implies_guarded_and_terminating_witness :
    (∃ d2, resolveImplies trivialCompile appsCyc 1 dA (GoVal.str (s2l "B")) = .ok d2 ∧
        (∀ n r, lookupD dA n = some r → lookupD d2 n = some r) ∧
        (∀ n r, lookupD dA n = none → lookupD d2 n = some r →
          ∃ app p, lookupAssocL appsCyc n = some app ∧ p.str = n ∧ r = impliedApp app p) ∧
        (keysNodup dA → keysNodup d2)) ∧
      ∀ fuel2, undetCount appsCyc dA ≤ fuel2 →
        resolveImplies trivialCompile appsCyc fuel2 dA (GoVal.str (s2l "B")) =
          resolveImplies trivialCompile appsCyc 1 dA (GoVal.str (s2l "B")) :=
  C7_implies_guarded_and_terminating trivialCompile appsCyc dA (GoVal.str (s2l "B"))
    [(s2l "main", [parseOnePattern trivialCompile (s2l "B")])] 1
    (by intro e he hnull; fin_cases he <;> rfl) rfl (by decide)
